import Mathlib

set_option autoImplicit false

/-!
Shallow embedding of `src/reverse-iterable-set.ts` (class `ReverseIterableSet`).

Modelling conventions:

* Node objects are stored in an append-only arena `nodes : List (ReverseIterableSetNode V)`;
  a JavaScript node reference (`ReverseIterableSetNode<V> | null`) is an `Option Nat`
  index into that arena (`none` = `null`).  Nodes are never removed from the arena —
  in JavaScript an unlinked node object simply becomes unreachable, which is
  unobservable — so every id ever handed out stays a valid index.
* The private `Map` `_setMap` is an association list `List (V × Nat)` from element
  values to node ids, with the operations of the built-in `Map` modelled in the
  `JSMap` namespace.
* Where a claim depends on the JavaScript value `undefined` (the iterator protocol
  marks a step `done` exactly when the produced value is `undefined`), the element
  type is instantiated to `Option U`, with `none` playing `undefined`.  The local
  variable `value` of the iterator's `next` has type `Option W`; `none` means it was
  never assigned (it stays `undefined`), and for the `values()` iterator the
  assignment `value = node.value` lands in the same `Option` because a stored
  `undefined` element and an unassigned `value` are the same JavaScript value.
-/

/-- `ReverseIterableSetNode<V>` (lines 330–342): the stored `value` plus the
`nextNode`/`prevNode` references, modelled as arena indices with `none` = `null`. -/
structure ReverseIterableSetNode (V : Type) where
  value : V
  nextNode : Option Nat
  prevNode : Option Nat
deriving DecidableEq

namespace JSMap

variable {K A : Type} [DecidableEq K]

/-- Model of `Map.prototype.get`: the value of the first (unique) entry for the key. -/
def get : List (K × A) → K → Option A
  | [], _ => none
  | (k, a) :: m, key => if k = key then some a else get m key

/-- Model of `Map.prototype.has`. -/
def hasKey (m : List (K × A)) (key : K) : Bool :=
  (get m key).isSome

/-- Model of `Map.prototype.set`: updates the entry in place when the key is present,
appends a fresh entry otherwise (JavaScript `Map` preserves insertion order). -/
def set : List (K × A) → K → A → List (K × A)
  | [], key, a => [(key, a)]
  | (k, b) :: m, key, a => if k = key then (key, a) :: m else (k, b) :: set m key a

/-- Model of `Map.prototype.delete` (the removal part; the boolean result of the
JavaScript call is `hasKey` of the map before removal). -/
def delete : List (K × A) → K → List (K × A)
  | [], _ => []
  | (k, a) :: m, key => if k = key then m else (k, a) :: delete m key

end JSMap

/-- The state of a `ReverseIterableSet<V>` object (lines 9–12): the node arena,
the private `Map` `_setMap`, and the `_firstNode`/`_lastNode` references. -/
structure ReverseIterableSet (V : Type) where
  nodes : List (ReverseIterableSetNode V)
  _setMap : List (V × Nat)
  _firstNode : Option Nat
  _lastNode : Option Nat
deriving DecidableEq

namespace ReverseIterableSet

variable {V U : Type} [DecidableEq V] [DecidableEq U]

/-- `new ReverseIterableSet()` with no argument (lines 18–22). -/
def empty (V : Type) : ReverseIterableSet V :=
  { nodes := [], _setMap := [], _firstNode := none, _lastNode := none }

/-- The `size` accessor (lines 46–48): `this._setMap.size`. -/
def size (s : ReverseIterableSet V) : Nat :=
  s._setMap.length

/-- `has(value)` (lines 65–67): `this._setMap.has(value)`. -/
def has (s : ReverseIterableSet V) (value : V) : Bool :=
  JSMap.hasKey s._setMap value

/-- `clear()` (lines 53–57).  The arena is kept: unlinked node objects merely become
unreachable in JavaScript, which is unobservable. -/
def clear (s : ReverseIterableSet V) : ReverseIterableSet V :=
  { s with _setMap := [], _firstNode := none, _lastNode := none }

/-- The assignment `«node at index j».nextNode = x`.  The `none` fallback cannot
occur for the indices the source dereferences (they come from live references). -/
def setNext (nodes : List (ReverseIterableSetNode V)) (j : Nat) (x : Option Nat) :
    List (ReverseIterableSetNode V) :=
  match nodes.get? j with
  | some n => nodes.set j { n with nextNode := x }
  | none => nodes

/-- The assignment `«node at index j».prevNode = x`. -/
def setPrev (nodes : List (ReverseIterableSetNode V)) (j : Nat) (x : Option Nat) :
    List (ReverseIterableSetNode V) :=
  match nodes.get? j with
  | some n => nodes.set j { n with prevNode := x }
  | none => nodes

/-- `add(value)` (lines 75–97): no-op when present; otherwise create a node, link it
after the current last node, update `_firstNode` if the set was empty, and make it
the new `_lastNode`.  (The source returns `this`; with value semantics the returned
set is the result.) -/
def add (s : ReverseIterableSet V) (value : V) : ReverseIterableSet V :=
  if s.has value then s
  else
    let i := s.nodes.length
    let node : ReverseIterableSetNode V :=
      { value := value, nextNode := none, prevNode := s._lastNode }
    let nodes := s.nodes ++ [node]
    let nodes :=
      match s._lastNode with
      | some j => setNext nodes j (some i)
      | none => nodes
    { nodes := nodes
      _setMap := JSMap.set s._setMap value i
      _firstNode := match s._firstNode with | none => some i | some f => some f
      _lastNode := some i }

/-- `addFirst(value)` (lines 106–128): symmetric to `add`, linking before the current
first node. -/
def addFirst (s : ReverseIterableSet V) (value : V) : ReverseIterableSet V :=
  if s.has value then s
  else
    let i := s.nodes.length
    let node : ReverseIterableSetNode V :=
      { value := value, nextNode := s._firstNode, prevNode := none }
    let nodes := s.nodes ++ [node]
    let nodes :=
      match s._firstNode with
      | some j => setPrev nodes j (some i)
      | none => nodes
    { nodes := nodes
      _setMap := JSMap.set s._setMap value i
      _firstNode := some i
      _lastNode := match s._lastNode with | none => some i | some l => some l }

/-- `delete(value)` (lines 137–167): splice the node out of the chain (four cases on
its neighbours), remove the map entry, and report whether the value existed. -/
def delete (s : ReverseIterableSet V) (value : V) : Bool × ReverseIterableSet V :=
  match JSMap.get s._setMap value with
  | none => (false, s)
  | some i =>
    let s' :=
      match s.nodes.get? i with
      | none => s
      | some node =>
        match node.prevNode, node.nextNode with
        | some p, some q =>
          { s with nodes := setPrev (setNext s.nodes p (some q)) q (some p) }
        | some p, none =>
          { s with nodes := setNext s.nodes p none, _lastNode := some p }
        | none, some q =>
          { s with nodes := setPrev s.nodes q none, _firstNode := some q }
        | none, none =>
          { s with _firstNode := none, _lastNode := none }
    (true, { s' with _setMap := JSMap.delete s'._setMap value })

/-- `new ReverseIterableSet(iterable)` (lines 18–28): seed by `add` in source order. -/
def ofList (l : List V) : ReverseIterableSet V :=
  l.foldl add (empty V)

end ReverseIterableSet

/-- The iterator object returned by `_iterableIterator` (lines 288–321): the captured
`lastNode` and `startNode` plus the mutable `currentNode` and `forwards` flag.
(`startNode = none` models the `undefined` argument.) -/
structure ReverseIterableIterator where
  lastNode : Option Nat
  startNode : Option Nat
  currentNode : Option Nat
  forwards : Bool
deriving DecidableEq

/-- `iteratorResult(value)` (lines 350–355): `done` is `value === undefined`. -/
def iteratorResult {W : Type} (value : Option W) : Option W × Bool :=
  (value, value.isNone)

namespace ReverseIterableSet

variable {V U : Type} [DecidableEq V] [DecidableEq U]

/-- `_iterableIterator(getIteratorValue, startNode)` (lines 288–321), creation part:
`currentNode = startNode !== undefined ? startNode : this._firstNode`, `forwards = true`.
The captured `getIteratorValue` closure is supplied at each `next` call instead of
being stored (it is fixed per iterator kind). -/
def _iterableIterator (s : ReverseIterableSet V) (startNode : Option Nat) :
    ReverseIterableIterator :=
  { lastNode := s._lastNode
    startNode := startNode
    currentNode := match startNode with | some i => some i | none => s._firstNode
    forwards := true }

/-- `values()` (lines 243–247). -/
def values (s : ReverseIterableSet V) : ReverseIterableIterator :=
  s._iterableIterator none

/-- `entries()` (lines 229–233): same cursor state as `values()`; only the captured
`getIteratorValue` differs. -/
def entries (s : ReverseIterableSet V) : ReverseIterableIterator :=
  s._iterableIterator none

/-- `iteratorFor(value)` (lines 259–264): `startNode = this._setMap.get(value)`. -/
def iteratorFor (s : ReverseIterableSet V) (value : V) : ReverseIterableIterator :=
  s._iterableIterator (JSMap.get s._setMap value)

end ReverseIterableSet

/-- The iterator's `reverseIterator()` method (lines 299–305):
`currentNode = startNode !== undefined ? startNode : lastNode`, `forwards = false`. -/
def ReverseIterableIterator.reverseIterator (it : ReverseIterableIterator) :
    ReverseIterableIterator :=
  { it with
    currentNode := match it.startNode with | some i => some i | none => it.lastNode
    forwards := false }

/-- `reverseIterator()` on the set (lines 217–219): `this.values().reverseIterator()`. -/
def ReverseIterableSet.reverseIterator {V : Type}
    (s : ReverseIterableSet V) : ReverseIterableIterator :=
  (s.values).reverseIterator

/-- The iterator's `next()` method (lines 310–319).  When `currentNode` is set, the
value is produced by the captured `getIteratorValue` and `currentNode` advances in the
current direction; the result is `iteratorResult(value)`.  The dangling-index branch
cannot occur for cursors over states built by the operations. -/
def ReverseIterableIterator.next {V W : Type} (s : ReverseIterableSet V)
    (getIteratorValue : ReverseIterableSetNode V → Option W)
    (it : ReverseIterableIterator) : (Option W × Bool) × ReverseIterableIterator :=
  match it.currentNode with
  | none => (iteratorResult none, it)
  | some i =>
    match s.nodes.get? i with
    | none => (iteratorResult none, it)
    | some node =>
      let value := getIteratorValue node
      (iteratorResult value,
        { it with currentNode := if it.forwards then node.nextNode else node.prevNode })

/-- The `getIteratorValue` closure of `values()` and `iteratorFor()` (lines 244, 261):
`node => node.value`.  With elements in `Option U`, a stored `undefined` element makes
the produced value `undefined`. -/
def valuesGetter {U : Type} (n : ReverseIterableSetNode (Option U)) : Option U :=
  n.value

/-- The `getIteratorValue` closure of `entries()` (line 230):
`node => [node.value, node.value]` — an array, never `undefined`. -/
def entriesGetter {V : Type} (n : ReverseIterableSetNode V) : Option (V × V) :=
  some (n.value, n.value)

/-- Consuming a cursor with the iteration protocol (e.g. the spread operator): keep
calling `next` and gathering values while `done` is false.  Since `done` is exactly
`value === undefined`, stopping on `none` is stopping on `done`.  `fuel` bounds the
number of steps; any `fuel` at least the chain length is enough. -/
def collect {V W : Type} (s : ReverseIterableSet V)
    (getIteratorValue : ReverseIterableSetNode V → Option W) :
    Nat → ReverseIterableIterator → List W
  | 0, _ => []
  | fuel + 1, it =>
    match ReverseIterableIterator.next s getIteratorValue it with
    | ((some w, _), it') => w :: collect s getIteratorValue fuel it'
    | ((none, _), _) => []

/-- The cursor state after `k` calls to `next`. -/
def stepN {V W : Type} (s : ReverseIterableSet V)
    (getIteratorValue : ReverseIterableSetNode V → Option W) :
    Nat → ReverseIterableIterator → ReverseIterableIterator
  | 0, it => it
  | k + 1, it => stepN s getIteratorValue k (ReverseIterableIterator.next s getIteratorValue it).2

/-- Collecting the value cursor with enough fuel for any state built by the
operations (the chain is never longer than the arena). -/
def collectValues {U : Type} [DecidableEq U] (s : ReverseIterableSet (Option U))
    (it : ReverseIterableIterator) : List U :=
  collect s valuesGetter (s.nodes.length + 1) it

/-! ## The chain representation predicate -/

namespace ReverseIterableSet

variable {V U : Type}

/-- The value stored at arena index `i`, when the index is valid. -/
def valAt (s : ReverseIterableSet V) (i : Nat) : Option V :=
  (s.nodes.get? i).map ReverseIterableSetNode.value

/-- The value a `getIteratorValue` closure produces at arena index `i`. -/
def nodeVal? {W : Type} (s : ReverseIterableSet V)
    (getIteratorValue : ReverseIterableSetNode V → Option W) (i : Nat) : Option W :=
  match s.nodes.get? i with
  | some n => getIteratorValue n
  | none => none

/-- `chainFromB s stop cur prev ids`: starting at reference `cur`, whose node is
expected to have `prevNode = prev`, following `nextNode` visits exactly the indices
`ids` and then reaches the reference `stop`. -/
def chainFromB (s : ReverseIterableSet V) (stop : Option Nat) :
    Option Nat → Option Nat → List Nat → Bool
  | cur, _, [] => cur == stop
  | cur, prev, i :: ids =>
    cur == some i &&
      match s.nodes.get? i with
      | none => false
      | some n => n.prevNode == prev && chainFromB s stop n.nextNode (some i) ids

/-- `chainBackB s stop cur ids`: starting at reference `cur`, following `prevNode`
visits exactly the indices `ids` and then reaches the reference `stop`. -/
def chainBackB (s : ReverseIterableSet V) (stop : Option Nat) :
    Option Nat → List Nat → Bool
  | cur, [] => cur == stop
  | cur, i :: ids =>
    cur == some i &&
      match s.nodes.get? i with
      | none => false
      | some n => chainBackB s stop n.prevNode ids

/-- The `prevNode` reference expected right after walking the segment `l`: the last
index of `l`, or the reference that preceded the segment when `l` is empty. -/
def prevEnd : List Nat → Option Nat → Option Nat
  | [], prev => prev
  | k :: l, _ => prevEnd l (some k)

/-- `Chain s ids`: the state `s` is well formed with `ids` as its chain, in insertion
order.  This packages the data-model invariants: the doubly linked chain starts at
`_firstNode` with no predecessor, ends at `_lastNode` with no successor, is acyclic
(`ids.Nodup`), every link is doubly consistent (each node's `prevNode` is its chain
predecessor), and `_setMap` indexes exactly the chain nodes, one entry per node,
with distinct keys. -/
structure Chain (s : ReverseIterableSet V) (ids : List Nat) : Prop where
  chain : chainFromB s none s._firstNode none ids = true
  last_eq : s._lastNode = ids.getLast?
  nodup : ids.Nodup
  keys_nodup : (s._setMap.map Prod.fst).Nodup
  map_mem : ∀ p ∈ s._setMap, p.2 ∈ ids ∧ valAt s p.2 = some p.1
  mem_map : ∀ i ∈ ids, ∃ p ∈ s._setMap, p.2 = i

/-- A state is well formed when some chain witnesses it. -/
def Inv (s : ReverseIterableSet V) : Prop :=
  ∃ ids, Chain s ids

/-- The elements of the set, in the order of the index list `ids`. -/
def valsOf (s : ReverseIterableSet V) (ids : List Nat) : List V :=
  ids.filterMap (valAt s)

end ReverseIterableSet

/-- A cursor obtained from one of the public entry points — `values()`, `entries()`
(whose state coincides with that of `values()`), `reverseIterator()`, or
`iteratorFor(value)` — and then stepped any number of times with `next`. -/
def ReverseIterableSet.DerivedCursor {V W : Type} [DecidableEq V]
    (s : ReverseIterableSet V) (g : ReverseIterableSetNode V → Option W)
    (it : ReverseIterableIterator) : Prop :=
  ∃ it₀ k,
    (it₀ = s.values ∨ it₀ = s.reverseIterator ∨ ∃ v, it₀ = s.iteratorFor v) ∧
    it = stepN s g k it₀

/-- Membership of a cursor's position in the chain of a well-formed set. -/
def ReverseIterableSet.onChain (ids : List Nat) (it : ReverseIterableIterator) : Prop :=
  it.currentNode = none ∨ ∃ i ∈ ids, it.currentNode = some i

/-- The set built by inserting a, b, c, d, e in order. -/
def exampleSet : ReverseIterableSet (Option String) :=
  ReverseIterableSet.ofList [some "a", some "b", some "c", some "d", some "e"]

/-- A small numeric example set. -/
def exNums : ReverseIterableSet (Option Nat) :=
  ReverseIterableSet.ofList [some 10, some 20, some 30]

/-- A singleton example set. -/
def exSingle : ReverseIterableSet (Option Nat) :=
  ReverseIterableSet.ofList [some 0]

/-- A set containing the element `undefined` (modelled as `none`) followed by `0`. -/
def exUndef : ReverseIterableSet (Option Nat) :=
  ReverseIterableSet.ofList [none, some 0]

/-! ## Association-list lemmas for the `Map` model -/

namespace JSMap

variable {K A : Type} [DecidableEq K]

theorem get_eq_none_iff {m : List (K × A)} {key : K} :
    get m key = none ↔ key ∉ m.map Prod.fst := by
  induction m with
  | nil => simp [get]
  | cons p m ih =>
    obtain ⟨k, a⟩ := p
    by_cases h : k = key <;> simp [get, h, ih, Ne.symm, eq_comm]

theorem get_mem {m : List (K × A)} {key : K} {a : A} (h : get m key = some a) :
    (key, a) ∈ m := by
  induction m with
  | nil => simp [get] at h
  | cons p m ih =>
    obtain ⟨k, b⟩ := p
    by_cases hk : k = key
    · subst hk
      simp [get] at h
      simp [h]
    · simp [get, hk] at h
      simpa using Or.inr (ih h)

theorem mem_get {m : List (K × A)} (hnd : (m.map Prod.fst).Nodup) {key : K} {a : A}
    (h : (key, a) ∈ m) : get m key = some a := by
  induction m with
  | nil => simp at h
  | cons p m ih =>
    obtain ⟨k, b⟩ := p
    simp only [List.map_cons, List.nodup_cons] at hnd
    rcases List.mem_cons.mp h with h1 | h1
    · cases h1
      simp [get]
    · have hk : k ≠ key := by
        intro he
        subst he
        exact hnd.1 (List.mem_map.mpr ⟨_, h1, rfl⟩)
      simp [get, hk, ih hnd.2 h1]

theorem set_of_get_none {m : List (K × A)} {key : K} (h : get m key = none) (a : A) :
    set m key a = m ++ [(key, a)] := by
  induction m with
  | nil => simp [set]
  | cons p m ih =>
    obtain ⟨k, b⟩ := p
    by_cases hk : k = key
    · subst hk
      simp [get] at h
    · simp [get, hk] at h
      simp [set, hk, ih h]

theorem delete_sublist (m : List (K × A)) (key : K) : List.Sublist (delete m key) m := by
  induction m with
  | nil => simp [delete]
  | cons p m ih =>
    obtain ⟨k, b⟩ := p
    by_cases hk : k = key
    · simp [delete, hk]
    · simpa [delete, hk] using ih.cons₂ (k, b)

theorem mem_delete_iff {m : List (K × A)} (hnd : (m.map Prod.fst).Nodup) {key : K}
    {p : K × A} : p ∈ delete m key ↔ p ∈ m ∧ p.1 ≠ key := by
  induction m with
  | nil => simp [delete]
  | cons q m ih =>
    obtain ⟨k, b⟩ := q
    simp only [List.map_cons, List.nodup_cons] at hnd
    by_cases hk : k = key
    · subst hk
      simp only [delete, if_pos rfl]
      constructor
      · intro hp
        refine ⟨List.mem_cons_of_mem _ hp, ?_⟩
        intro he
        exact hnd.1 (List.mem_map.mpr ⟨p, hp, he⟩)
      · rintro ⟨hp, hne⟩
        rcases List.mem_cons.mp hp with h1 | h1
        · exact absurd (by rw [h1]) hne
        · exact h1
    · simp only [delete, if_neg hk]
      rw [List.mem_cons, List.mem_cons, ih hnd.2]
      constructor
      · rintro (rfl | ⟨hp, hne⟩)
        · exact ⟨Or.inl rfl, hk⟩
        · exact ⟨Or.inr hp, hne⟩
      · rintro ⟨rfl | hp, hne⟩
        · exact Or.inl rfl
        · exact Or.inr ⟨hp, hne⟩

theorem length_delete {m : List (K × A)} {key : K} {a : A} (h : get m key = some a) :
    (delete m key).length + 1 = m.length := by
  induction m with
  | nil => simp [get] at h
  | cons p m ih =>
    obtain ⟨k, b⟩ := p
    by_cases hk : k = key
    · simp [delete, hk]
    · simp [get, hk] at h
      simp [delete, hk, ih h]

end JSMap

/-! ## Chain lemmas -/

namespace ReverseIterableSet

variable {V U : Type}

theorem chainFromB_nil {s : ReverseIterableSet V} {stop cur prev : Option Nat} :
    chainFromB s stop cur prev [] = true ↔ cur = stop := by
  simp [chainFromB]

theorem chainFromB_cons {s : ReverseIterableSet V} {stop cur prev : Option Nat}
    {i : Nat} {ids : List Nat} :
    chainFromB s stop cur prev (i :: ids) = true ↔
      cur = some i ∧ ∃ n, s.nodes.get? i = some n ∧ n.prevNode = prev ∧
        chainFromB s stop n.nextNode (some i) ids = true := by
  simp only [chainFromB]
  cases h : s.nodes.get? i with
  | none => simp
  | some n => simp [and_assoc]

theorem chainBackB_nil {s : ReverseIterableSet V} {stop cur : Option Nat} :
    chainBackB s stop cur [] = true ↔ cur = stop := by
  simp [chainBackB]

theorem chainBackB_cons {s : ReverseIterableSet V} {stop cur : Option Nat}
    {i : Nat} {ids : List Nat} :
    chainBackB s stop cur (i :: ids) = true ↔
      cur = some i ∧ ∃ n, s.nodes.get? i = some n ∧
        chainBackB s stop n.prevNode ids = true := by
  simp only [chainBackB]
  cases h : s.nodes.get? i with
  | none => simp
  | some n => simp

theorem prevEnd_cons (k : Nat) (l : List Nat) (prev : Option Nat) :
    prevEnd (k :: l) prev = prevEnd l (some k) := rfl

theorem prevEnd_concat (l : List Nat) (j : Nat) (prev : Option Nat) :
    prevEnd (l ++ [j]) prev = some j := by
  induction l generalizing prev with
  | nil => rfl
  | cons k l ih => exact ih (some k)

theorem chainFromB_congr {s s' : ReverseIterableSet V} {stop : Option Nat}
    {ids : List Nat} {cur prev : Option Nat}
    (h : ∀ i ∈ ids, s'.nodes.get? i = s.nodes.get? i) :
    (chainFromB s' stop cur prev ids = true ↔ chainFromB s stop cur prev ids = true) := by
  induction ids generalizing cur prev with
  | nil => simp [chainFromB_nil]
  | cons i ids ih =>
    have hi := h i (List.mem_cons_self i ids)
    rw [chainFromB_cons, chainFromB_cons, hi]
    constructor
    · rintro ⟨rfl, n, hg, hp, hc⟩
      exact ⟨rfl, n, hg, hp, (ih (fun j hj => h j (List.mem_cons_of_mem _ hj))).mp hc⟩
    · rintro ⟨rfl, n, hg, hp, hc⟩
      exact ⟨rfl, n, hg, hp, (ih (fun j hj => h j (List.mem_cons_of_mem _ hj))).mpr hc⟩

theorem chainFromB_append {s : ReverseIterableSet V} {stop : Option Nat}
    {l₁ l₂ : List Nat} {cur prev : Option Nat} :
    chainFromB s stop cur prev (l₁ ++ l₂) = true ↔
      ∃ mid, chainFromB s mid cur prev l₁ = true ∧
        chainFromB s stop mid (prevEnd l₁ prev) l₂ = true := by
  induction l₁ generalizing cur prev with
  | nil => simp [chainFromB_nil, prevEnd]
  | cons k l₁ ih =>
    rw [List.cons_append, chainFromB_cons, prevEnd_cons]
    constructor
    · rintro ⟨rfl, n, hg, hp, hc⟩
      obtain ⟨mid, h1, h2⟩ := ih.mp hc
      exact ⟨mid, chainFromB_cons.mpr ⟨rfl, n, hg, hp, h1⟩, h2⟩
    · rintro ⟨mid, h1, h2⟩
      obtain ⟨rfl, n, hg, hp, hc⟩ := chainFromB_cons.mp h1
      exact ⟨rfl, n, hg, hp, ih.mpr ⟨mid, hc, h2⟩⟩

theorem chainFromB_mem {s : ReverseIterableSet V} {stop : Option Nat}
    {ids : List Nat} {cur prev : Option Nat}
    (h : chainFromB s stop cur prev ids = true) :
    ∀ i ∈ ids, ∃ n, s.nodes.get? i = some n := by
  induction ids generalizing cur prev with
  | nil => intro i hi; simp at hi
  | cons k ids ih =>
    intro i hi
    obtain ⟨rfl, n, hg, hp, hc⟩ := chainFromB_cons.mp h
    rcases List.mem_cons.mp hi with rfl | hi
    · exact ⟨n, hg⟩
    · exact ih hc i hi

theorem chainFromB_lt {s : ReverseIterableSet V} {stop : Option Nat}
    {ids : List Nat} {cur prev : Option Nat}
    (h : chainFromB s stop cur prev ids = true) :
    ∀ i ∈ ids, i < s.nodes.length := by
  intro i hi
  obtain ⟨n, hn⟩ := chainFromB_mem h i hi
  obtain ⟨hlt, -⟩ := List.get?_eq_some.mp hn
  exact hlt

theorem chainFromB_head {s : ReverseIterableSet V} {stop : Option Nat}
    {ids : List Nat} {cur prev : Option Nat}
    (h : chainFromB s stop cur prev ids = true) :
    cur = match ids.head? with | some i => some i | none => stop := by
  cases ids with
  | nil => exact chainFromB_nil.mp h
  | cons i ids => exact (chainFromB_cons.mp h).1

theorem chainBackB_snoc {s : ReverseIterableSet V} {k : Nat}
    {m : ReverseIterableSetNode V} (hm : s.nodes.get? k = some m) :
    ∀ {L : List Nat} {cur : Option Nat},
      chainBackB s (some k) cur L = true →
      chainBackB s m.prevNode cur (L ++ [k]) = true := by
  intro L
  induction L with
  | nil =>
    intro cur h
    rw [chainBackB_nil.mp h]
    exact chainBackB_cons.mpr ⟨rfl, m, hm, chainBackB_nil.mpr rfl⟩
  | cons x xs ih =>
    intro cur h
    obtain ⟨rfl, n, hg, hc⟩ := chainBackB_cons.mp h
    exact chainBackB_cons.mpr ⟨rfl, n, hg, ih hc⟩

theorem chainBack_of_chainFrom {s : ReverseIterableSet V} {stop : Option Nat} :
    ∀ {l : List Nat} {j : Nat} {cur prev : Option Nat},
      chainFromB s stop cur prev (l ++ [j]) = true →
      chainBackB s prev (some j) (j :: l.reverse) = true := by
  intro l
  induction l with
  | nil =>
    intro j cur prev h
    obtain ⟨rfl, n, hg, hp, -⟩ := chainFromB_cons.mp h
    exact chainBackB_cons.mpr ⟨rfl, n, hg, chainBackB_nil.mpr hp⟩
  | cons k l ih =>
    intro j cur prev h
    rw [List.cons_append] at h
    obtain ⟨rfl, n, hg, hp, hc⟩ := chainFromB_cons.mp h
    have hb := ih hc
    have := chainBackB_snoc hg hb
    rw [hp] at this
    simpa [List.reverse_cons] using this

end ReverseIterableSet

/-! ## Iterator stepping lemmas -/

namespace ReverseIterableSet

variable {V U W : Type}

theorem nodeVal?_eq {s : ReverseIterableSet V} {g : ReverseIterableSetNode V → Option W}
    {i : Nat} {n : ReverseIterableSetNode V} (hg : s.nodes.get? i = some n) :
    nodeVal? s g i = g n := by
  simp only [nodeVal?, hg]

theorem next_of_none {s : ReverseIterableSet V} {g : ReverseIterableSetNode V → Option W}
    {it : ReverseIterableIterator} (h : it.currentNode = none) :
    ReverseIterableIterator.next s g it = ((none, true), it) := by
  simp only [ReverseIterableIterator.next, h, iteratorResult, Option.isNone_none]

theorem next_of_dangling {s : ReverseIterableSet V} {g : ReverseIterableSetNode V → Option W}
    {it : ReverseIterableIterator} {i : Nat} (h : it.currentNode = some i)
    (hn : s.nodes.get? i = none) :
    ReverseIterableIterator.next s g it = ((none, true), it) := by
  simp only [ReverseIterableIterator.next, h, hn, iteratorResult, Option.isNone_none]

theorem next_of_some {s : ReverseIterableSet V} {g : ReverseIterableSetNode V → Option W}
    {it : ReverseIterableIterator} {i : Nat} {n : ReverseIterableSetNode V}
    (h : it.currentNode = some i) (hn : s.nodes.get? i = some n) :
    ReverseIterableIterator.next s g it =
      ((g n, (g n).isNone),
        { it with currentNode := if it.forwards then n.nextNode else n.prevNode }) := by
  simp only [ReverseIterableIterator.next, h, hn, iteratorResult]

theorem next_fwd {s : ReverseIterableSet V} {g : ReverseIterableSetNode V → Option W}
    {it : ReverseIterableIterator} {i : Nat} {n : ReverseIterableSetNode V}
    (h : it.currentNode = some i) (hf : it.forwards = true)
    (hn : s.nodes.get? i = some n) :
    ReverseIterableIterator.next s g it =
      ((g n, (g n).isNone), { it with currentNode := n.nextNode }) := by
  rw [next_of_some h hn, hf]
  rfl

theorem next_bwd {s : ReverseIterableSet V} {g : ReverseIterableSetNode V → Option W}
    {it : ReverseIterableIterator} {i : Nat} {n : ReverseIterableSetNode V}
    (h : it.currentNode = some i) (hf : it.forwards = false)
    (hn : s.nodes.get? i = some n) :
    ReverseIterableIterator.next s g it =
      ((g n, (g n).isNone), { it with currentNode := n.prevNode }) := by
  rw [next_of_some h hn, hf]
  rfl

theorem next_fields (s : ReverseIterableSet V) (g : ReverseIterableSetNode V → Option W)
    (it : ReverseIterableIterator) :
    ((ReverseIterableIterator.next s g it).2).startNode = it.startNode ∧
      ((ReverseIterableIterator.next s g it).2).lastNode = it.lastNode ∧
      ((ReverseIterableIterator.next s g it).2).forwards = it.forwards := by
  rcases h : it.currentNode with - | i
  · rw [next_of_none h]
    exact ⟨rfl, rfl, rfl⟩
  · rcases hn : s.nodes.get? i with - | n
    · rw [next_of_dangling h hn]
      exact ⟨rfl, rfl, rfl⟩
    · rw [next_of_some h hn]
      exact ⟨rfl, rfl, rfl⟩

theorem stepN_fields (s : ReverseIterableSet V) (g : ReverseIterableSetNode V → Option W) :
    ∀ (k : Nat) (it : ReverseIterableIterator),
      (stepN s g k it).startNode = it.startNode ∧
        (stepN s g k it).lastNode = it.lastNode ∧
        (stepN s g k it).forwards = it.forwards := by
  intro k
  induction k with
  | zero => exact fun it => ⟨rfl, rfl, rfl⟩
  | succ k ih =>
    intro it
    have h1 := ih (ReverseIterableIterator.next s g it).2
    have h2 := next_fields s g it
    simp only [stepN]
    exact ⟨h1.1.trans h2.1, h1.2.1.trans h2.2.1, h1.2.2.trans h2.2.2⟩

theorem collect_of_none {s : ReverseIterableSet V} {g : ReverseIterableSetNode V → Option W}
    {it : ReverseIterableIterator} (h : it.currentNode = none) :
    ∀ fuel, collect s g fuel it = []
  | 0 => rfl
  | fuel + 1 => by simp only [collect, next_of_none h]

theorem collect_of_chainFrom {s : ReverseIterableSet V}
    {g : ReverseIterableSetNode V → Option W} :
    ∀ {ids : List Nat} {cur prev : Option Nat} {it : ReverseIterableIterator} {fuel : Nat},
      chainFromB s none cur prev ids = true →
      it.currentNode = cur → it.forwards = true → ids.length ≤ fuel →
      (∀ i ∈ ids, (nodeVal? s g i).isSome) →
      collect s g fuel it = ids.filterMap (nodeVal? s g) := by
  intro ids
  induction ids with
  | nil =>
    intro cur prev it fuel hc hcur _ _ _
    rw [chainFromB_nil.mp hc] at hcur
    simp [collect_of_none hcur]
  | cons i ids ih =>
    intro cur prev it fuel hc hcur hfwd hlen hsome
    obtain ⟨hcs, n, hg, hp, hrest⟩ := chainFromB_cons.mp hc
    rw [hcs] at hcur
    have hsi : (g n).isSome = true := by
      rw [← nodeVal?_eq (g := g) hg]
      exact hsome i (List.mem_cons_self i ids)
    obtain ⟨w, hw⟩ := Option.isSome_iff_exists.mp hsi
    cases fuel with
    | zero => exact absurd hlen (by simp)
    | succ f =>
      have hstep : collect s g (f + 1) it =
          w :: collect s g f { it with currentNode := n.nextNode } := by
        simp only [collect, next_fwd hcur hfwd hg, hw]
      have htail := @ih n.nextNode (some i) { it with currentNode := n.nextNode } f
        hrest rfl hfwd (by simpa using hlen)
        (fun j hj => hsome j (List.mem_cons_of_mem _ hj))
      rw [hstep, htail]
      simp [List.filterMap_cons, nodeVal?_eq hg, hw]

theorem collect_of_chainBack {s : ReverseIterableSet V}
    {g : ReverseIterableSetNode V → Option W} :
    ∀ {ids : List Nat} {cur : Option Nat} {it : ReverseIterableIterator} {fuel : Nat},
      chainBackB s none cur ids = true →
      it.currentNode = cur → it.forwards = false → ids.length ≤ fuel →
      (∀ i ∈ ids, (nodeVal? s g i).isSome) →
      collect s g fuel it = ids.filterMap (nodeVal? s g) := by
  intro ids
  induction ids with
  | nil =>
    intro cur it fuel hc hcur _ _ _
    rw [chainBackB_nil.mp hc] at hcur
    simp [collect_of_none hcur]
  | cons i ids ih =>
    intro cur it fuel hc hcur hbwd hlen hsome
    obtain ⟨hcs, n, hg, hrest⟩ := chainBackB_cons.mp hc
    rw [hcs] at hcur
    have hsi : (g n).isSome = true := by
      rw [← nodeVal?_eq (g := g) hg]
      exact hsome i (List.mem_cons_self i ids)
    obtain ⟨w, hw⟩ := Option.isSome_iff_exists.mp hsi
    cases fuel with
    | zero => exact absurd hlen (by simp)
    | succ f =>
      have hstep : collect s g (f + 1) it =
          w :: collect s g f { it with currentNode := n.prevNode } := by
        simp only [collect, next_bwd hcur hbwd hg, hw]
      have htail := @ih n.prevNode { it with currentNode := n.prevNode } f
        hrest rfl hbwd (by simpa using hlen)
        (fun j hj => hsome j (List.mem_cons_of_mem _ hj))
      rw [hstep, htail]
      simp [List.filterMap_cons, nodeVal?_eq hg, hw]

end ReverseIterableSet

/-! ## Consequences of the chain invariant -/

namespace ReverseIterableSet

variable {V U W : Type}

theorem prevEnd_mem : ∀ {l : List Nat} {prev : Option Nat} {x : Nat},
    prevEnd l prev = some x → x ∈ l ∨ prev = some x := by
  intro l
  induction l with
  | nil => exact fun h => Or.inr h
  | cons k l ih =>
    intro prev x h
    rcases ih h with hx | hx
    · exact Or.inl (List.mem_cons_of_mem _ hx)
    · obtain rfl := Option.some.inj hx
      exact Or.inl (List.mem_cons_self _ _)

theorem Chain.first_eq {s : ReverseIterableSet V} {ids : List Nat} (h : Chain s ids) :
    s._firstNode = ids.head? := by
  have hh := chainFromB_head h.chain
  cases ids with
  | nil => exact hh
  | cons i ids => exact hh

theorem Chain.node_of_mem {s : ReverseIterableSet V} {ids : List Nat} (h : Chain s ids)
    {i : Nat} (hi : i ∈ ids) : ∃ n, s.nodes.get? i = some n :=
  chainFromB_mem h.chain i hi

theorem Chain.lt_of_mem {s : ReverseIterableSet V} {ids : List Nat} (h : Chain s ids)
    {i : Nat} (hi : i ∈ ids) : i < s.nodes.length :=
  chainFromB_lt h.chain i hi

/-- The chain is closed under the node references: a chain node's `nextNode` and
`prevNode` are `null` or point back into the chain. -/
theorem Chain.closed {s : ReverseIterableSet V} {ids : List Nat} (h : Chain s ids)
    {i : Nat} {n : ReverseIterableSetNode V} (hi : i ∈ ids)
    (hn : s.nodes.get? i = some n) :
    (n.nextNode = none ∨ ∃ j ∈ ids, n.nextNode = some j) ∧
      (n.prevNode = none ∨ ∃ j ∈ ids, n.prevNode = some j) := by
  obtain ⟨l₁, l₂, rfl⟩ := List.append_of_mem hi
  obtain ⟨mid, h1, h2⟩ := chainFromB_append.mp h.chain
  obtain ⟨hm, n', hg', hp', hc'⟩ := chainFromB_cons.mp h2
  have hnn : n' = n := by rw [hn] at hg'; exact (Option.some.inj hg').symm
  subst hnn
  constructor
  · have hh := chainFromB_head hc'
    cases hl : l₂.head? with
    | none =>
      rw [hl] at hh
      exact Or.inl hh
    | some q =>
      rw [hl] at hh
      refine Or.inr ⟨q, ?_, hh⟩
      have hq : q ∈ l₂ := List.mem_of_mem_head? hl
      simp [hq]
  · cases hpe : n'.prevNode with
    | none => exact Or.inl rfl
    | some p =>
      rw [hpe] at hp'
      rcases prevEnd_mem hp'.symm with hp | hp
      · exact Or.inr ⟨p, by simp [hp], rfl⟩
      · simp at hp

theorem Chain.get_some {s : ReverseIterableSet V} {ids : List Nat} (h : Chain s ids)
    [DecidableEq V] {v : V} {i : Nat} (hg : JSMap.get s._setMap v = some i) :
    i ∈ ids ∧ valAt s i = some v :=
  h.map_mem (v, i) (JSMap.get_mem hg)

theorem Chain.get_none {s : ReverseIterableSet V} {ids : List Nat} (h : Chain s ids)
    [DecidableEq V] {v : V} (hg : JSMap.get s._setMap v = none) :
    ∀ i ∈ ids, valAt s i ≠ some v := by
  intro i hi hv
  obtain ⟨p, hp, hpi⟩ := h.mem_map i hi
  obtain ⟨-, hpv⟩ := h.map_mem p hp
  rw [hpi, hv] at hpv
  have hmem : (v, i) ∈ s._setMap := by
    have hpq : p = (v, i) := Prod.ext (Option.some.inj hpv).symm hpi
    rwa [hpq] at hp
  exact (JSMap.get_eq_none_iff.mp hg) (List.mem_map.mpr ⟨(v, i), hmem, rfl⟩)

/-- Only one chain node carries any given element value. -/
theorem Chain.value_unique {s : ReverseIterableSet V} {ids : List Nat} (h : Chain s ids)
    {i j : Nat} {v : V} (hi : i ∈ ids) (hj : j ∈ ids)
    (hvi : valAt s i = some v) (hvj : valAt s j = some v) : i = j := by
  obtain ⟨p, hp, hpi⟩ := h.mem_map i hi
  obtain ⟨q, hq, hqj⟩ := h.mem_map j hj
  obtain ⟨-, hpv⟩ := h.map_mem p hp
  obtain ⟨-, hqv⟩ := h.map_mem q hq
  rw [hpi, hvi] at hpv
  rw [hqj, hvj] at hqv
  have hkey : p.1 = q.1 :=
    ((Option.some.inj hpv).symm).trans (Option.some.inj hqv)
  have hpq : p = q := List.inj_on_of_nodup_map h.keys_nodup hp hq hkey
  rw [← hpi, ← hqj, hpq]

/-- The index has exactly one entry per chain node. -/
theorem Chain.map_length {s : ReverseIterableSet V} {ids : List Nat} (h : Chain s ids) :
    s._setMap.length = ids.length := by
  have hsub1 : s._setMap.map Prod.snd ⊆ ids := by
    intro i hi
    obtain ⟨p, hp, rfl⟩ := List.mem_map.mp hi
    exact (h.map_mem p hp).1
  have hsub2 : ids ⊆ s._setMap.map Prod.snd := by
    intro i hi
    obtain ⟨p, hp, hpi⟩ := h.mem_map i hi
    exact List.mem_map.mpr ⟨p, hp, hpi⟩
  have hnd : (s._setMap.map Prod.snd).Nodup := by
    refine List.Nodup.map_on ?_ (List.Nodup.of_map _ h.keys_nodup)
    intro p hp q hq hsnd
    obtain ⟨-, hpv⟩ := h.map_mem p hp
    obtain ⟨-, hqv⟩ := h.map_mem q hq
    rw [hsnd] at hpv
    have hkey : p.1 = q.1 := by
      rw [hqv] at hpv
      exact (Option.some.inj hpv).symm
    exact List.inj_on_of_nodup_map h.keys_nodup hp hq hkey
  have h1 := (List.subperm_of_subset hnd hsub1).length_le
  have h2 := (List.subperm_of_subset h.nodup hsub2).length_le
  have := List.length_map s._setMap Prod.snd
  omega

theorem Chain.size_eq {s : ReverseIterableSet V} {ids : List Nat} (h : Chain s ids) :
    s.size = ids.length :=
  h.map_length

end ReverseIterableSet

/-! ## Arena update lemmas -/

namespace ReverseIterableSet

variable {V U W : Type}

theorem get?_append_lt {α : Type} {l₁ l₂ : List α} {i : Nat} (h : i < l₁.length) :
    (l₁ ++ l₂).get? i = l₁.get? i := by
  simp [List.get?_eq_getElem?, List.getElem?_append_left h]

theorem get?_concat_len {α : Type} (l : List α) (a : α) :
    (l ++ [a]).get? l.length = some a := by
  simp [List.get?_eq_getElem?]

theorem lt_of_get?_some {α : Type} {l : List α} {i : Nat} {a : α}
    (h : l.get? i = some a) : i < l.length := by
  by_contra hle
  rw [List.get?_eq_none.mpr (Nat.le_of_not_lt hle)] at h
  exact Option.noConfusion h

theorem get?_setNext_self {nodes : List (ReverseIterableSetNode V)} {j : Nat}
    {n : ReverseIterableSetNode V} (h : nodes.get? j = some n) (x : Option Nat) :
    (setNext nodes j x).get? j = some { n with nextNode := x } := by
  simp only [setNext, h]
  simp [List.get?_eq_getElem?, List.getElem?_set_self, lt_of_get?_some h]

theorem get?_setNext_ne {nodes : List (ReverseIterableSetNode V)} {j k : Nat}
    (hne : k ≠ j) (x : Option Nat) :
    (setNext nodes j x).get? k = nodes.get? k := by
  unfold setNext
  cases h : nodes.get? j with
  | none => rfl
  | some n => simp [List.get?_eq_getElem?, List.getElem?_set_ne (Ne.symm hne)]

theorem get?_setPrev_self {nodes : List (ReverseIterableSetNode V)} {j : Nat}
    {n : ReverseIterableSetNode V} (h : nodes.get? j = some n) (x : Option Nat) :
    (setPrev nodes j x).get? j = some { n with prevNode := x } := by
  simp only [setPrev, h]
  simp [List.get?_eq_getElem?, List.getElem?_set_self, lt_of_get?_some h]

theorem get?_setPrev_ne {nodes : List (ReverseIterableSetNode V)} {j k : Nat}
    (hne : k ≠ j) (x : Option Nat) :
    (setPrev nodes j x).get? k = nodes.get? k := by
  unfold setPrev
  cases h : nodes.get? j with
  | none => rfl
  | some n => simp [List.get?_eq_getElem?, List.getElem?_set_ne (Ne.symm hne)]

theorem has_eq_false_iff [DecidableEq V] {s : ReverseIterableSet V} {v : V} :
    s.has v = false ↔ JSMap.get s._setMap v = none := by
  unfold has JSMap.hasKey
  cases JSMap.get s._setMap v <;> simp

theorem has_eq_true_iff [DecidableEq V] {s : ReverseIterableSet V} {v : V} :
    s.has v = true ↔ ∃ i, JSMap.get s._setMap v = some i := by
  unfold has JSMap.hasKey
  cases JSMap.get s._setMap v <;> simp

end ReverseIterableSet

/-! ## Preservation of the chain invariant -/

namespace ReverseIterableSet

variable {V U W : Type}

theorem add_eq_of_absent [DecidableEq V] {s : ReverseIterableSet V} {v : V}
    (hv : s.has v = false) :
    s.add v =
      { nodes :=
          match s._lastNode with
          | some j =>
            setNext (s.nodes ++ [{ value := v, nextNode := none, prevNode := s._lastNode }])
              j (some s.nodes.length)
          | none => s.nodes ++ [{ value := v, nextNode := none, prevNode := s._lastNode }]
        _setMap := JSMap.set s._setMap v s.nodes.length
        _firstNode := match s._firstNode with | none => some s.nodes.length | some f => some f
        _lastNode := some s.nodes.length } := by
  simp only [add, hv]
  rfl

theorem valAt_congr {s t : ReverseIterableSet V} {k : Nat}
    (h : t.nodes.get? k = s.nodes.get? k) : valAt t k = valAt s k := by
  simp only [valAt, h]

theorem valAt_of_get {s : ReverseIterableSet V} {k : Nat} {n : ReverseIterableSetNode V}
    (h : s.nodes.get? k = some n) : valAt s k = some n.value := by
  simp only [valAt, h, Option.map_some']

/-- `add` on an absent value appends a fresh chain node at the end. -/
theorem Chain.add_absent [DecidableEq V] {s : ReverseIterableSet V} {ids : List Nat}
    (h : Chain s ids) {v : V} (hv : s.has v = false) :
    Chain (s.add v) (ids ++ [s.nodes.length]) := by
  have hgv : JSMap.get s._setMap v = none := has_eq_false_iff.mp hv
  have hvkeys : v ∉ s._setMap.map Prod.fst := JSMap.get_eq_none_iff.mp hgv
  have hsmap : (s.add v)._setMap = s._setMap ++ [(v, s.nodes.length)] := by
    rw [add_eq_of_absent hv]
    exact JSMap.set_of_get_none hgv _
  have hfresh : ∀ k ∈ ids, k < s.nodes.length := fun k hk => h.lt_of_mem hk
  have hi0 : s.nodes.length ∉ ids := fun hmem => Nat.lt_irrefl _ (hfresh _ hmem)
  have hslast : (s.add v)._lastNode = some s.nodes.length := by
    rw [add_eq_of_absent hv]
  have hkeys : ((s.add v)._setMap.map Prod.fst).Nodup := by
    rw [hsmap]
    simp only [List.map_append, List.nodup_append]
    exact ⟨h.keys_nodup, by simp, by simpa using fun hk => hvkeys hk⟩
  have hnodup : (ids ++ [s.nodes.length]).Nodup := by
    simp only [List.nodup_append]
    exact ⟨h.nodup, by simp, by simpa using hi0⟩
  rcases List.eq_nil_or_concat' ids with rfl | ⟨l, j, rfl⟩
  · -- inserting into the empty set
    have hlast : s._lastNode = none := by rw [h.last_eq]; rfl
    have hfirst : s._firstNode = none := by rw [h.first_eq]; rfl
    have hmapnil : s._setMap = [] := by
      refine List.eq_nil_iff_forall_not_mem.mpr fun p hp => ?_
      have := (h.map_mem p hp).1
      simp at this
    have hsnodes : (s.add v).nodes =
        s.nodes ++ [{ value := v, nextNode := none, prevNode := none }] := by
      rw [add_eq_of_absent hv, hlast]
    have hsfirst : (s.add v)._firstNode = some s.nodes.length := by
      rw [add_eq_of_absent hv, hfirst]
    have hnew : (s.add v).nodes.get? s.nodes.length =
        some { value := v, nextNode := none, prevNode := none } := by
      rw [hsnodes, get?_concat_len]
    refine ⟨?_, ?_, hnodup, hkeys, ?_, ?_⟩
    · rw [hsfirst]
      exact chainFromB_cons.mpr ⟨rfl, _, hnew, rfl, chainFromB_nil.mpr rfl⟩
    · rw [hslast]
      rfl
    · intro p hp
      rw [hsmap, hmapnil] at hp
      simp at hp
      obtain ⟨rfl, rfl⟩ := hp
      exact ⟨by simp, by rw [valAt_of_get hnew]⟩
    · intro i hi
      simp at hi
      subst hi
      rw [hsmap, hmapnil]
      exact ⟨(v, s.nodes.length), by simp, rfl⟩
  · -- inserting after the existing last node `j`
    have hlast : s._lastNode = some j := by rw [h.last_eq, List.getLast?_concat]
    have hjl : j ∉ l := by
      have hd := (List.nodup_append.mp h.nodup).2.2
      intro hmem
      exact hd hmem (by simp)
    have hjid : j ∈ l ++ [j] := by simp
    obtain ⟨m, hm⟩ := h.node_of_mem hjid
    have hjlt : j < s.nodes.length := h.lt_of_mem hjid
    have hjne : j ≠ s.nodes.length := Nat.ne_of_lt hjlt
    have hsnodes : (s.add v).nodes =
        setNext (s.nodes ++ [{ value := v, nextNode := none, prevNode := some j }])
          j (some s.nodes.length) := by
      rw [add_eq_of_absent hv, hlast]
    have hsfirst : (s.add v)._firstNode = s._firstNode := by
      have hfirst : s._firstNode = (l ++ [j]).head? := h.first_eq
      have hfirst_ne : s._firstNode ≠ none := by
        rw [hfirst]
        cases l with
        | nil => simp
        | cons x xs => simp
      obtain ⟨f, hf⟩ := Option.ne_none_iff_exists.mp hfirst_ne
      rw [add_eq_of_absent hv, ← hf]
    have harena : ∀ k, k ≠ j → k < s.nodes.length →
        (s.add v).nodes.get? k = s.nodes.get? k := by
      intro k hkj hklt
      rw [hsnodes, get?_setNext_ne hkj, get?_append_lt hklt]
    have harena_j : (s.add v).nodes.get? j =
        some { m with nextNode := some s.nodes.length } := by
      rw [hsnodes]
      exact get?_setNext_self (by rw [get?_append_lt hjlt]; exact hm) _
    have harena_new : (s.add v).nodes.get? s.nodes.length =
        some { value := v, nextNode := none, prevNode := some j } := by
      rw [hsnodes, get?_setNext_ne (Ne.symm hjne), get?_concat_len]
    have hval : ∀ k ∈ l ++ [j], valAt (s.add v) k = valAt s k := by
      intro k hk
      by_cases hkj : k = j
      · subst hkj
        rw [valAt_of_get harena_j, valAt_of_get hm]
      · exact valAt_congr (harena k hkj (hfresh k hk))
    obtain ⟨mid, h1, h2⟩ := chainFromB_append.mp h.chain
    obtain ⟨hms, m', hm', hp', hnil⟩ := chainFromB_cons.mp h2
    have hmm : m' = m := by rw [hm] at hm'; exact (Option.some.inj hm').symm
    subst hmm
    subst hms
    refine ⟨?_, ?_, hnodup, hkeys, ?_, ?_⟩
    · -- the new chain
      rw [hsfirst]
      refine chainFromB_append.mpr ⟨some s.nodes.length, ?_, ?_⟩
      · refine chainFromB_append.mpr ⟨some j, ?_, ?_⟩
        · rw [chainFromB_congr
            (fun k hk => harena k (fun hkj => hjl (hkj ▸ hk)) (hfresh k (by simp [hk])))]
          exact h1
        · exact chainFromB_cons.mpr ⟨rfl, _, harena_j, hp', chainFromB_nil.mpr rfl⟩
      · rw [prevEnd_concat]
        refine chainFromB_cons.mpr ⟨rfl, _, harena_new, rfl, chainFromB_nil.mpr rfl⟩
    · rw [hslast, List.getLast?_concat]
    · intro p hp
      rw [hsmap] at hp
      rcases List.mem_append.mp hp with hp | hp
      · obtain ⟨hpid, hpval⟩ := h.map_mem p hp
        refine ⟨?_, by rw [hval p.2 hpid]; exact hpval⟩
        simp at hpid ⊢
        tauto
      · simp at hp
        rw [hp]
        exact ⟨by simp, by rw [valAt_of_get harena_new]⟩
    · intro i hi
      rw [hsmap]
      rcases List.mem_append.mp hi with hi | hi
      · obtain ⟨p, hp, hpi⟩ := h.mem_map i hi
        exact ⟨p, by simp [hp], hpi⟩
      · simp at hi
        subst hi
        exact ⟨(v, s.nodes.length), by simp, rfl⟩

end ReverseIterableSet

namespace ReverseIterableSet

variable {V U W : Type}

theorem addFirst_eq_of_absent [DecidableEq V] {s : ReverseIterableSet V} {v : V}
    (hv : s.has v = false) :
    s.addFirst v =
      { nodes :=
          match s._firstNode with
          | some j =>
            setPrev (s.nodes ++ [{ value := v, nextNode := s._firstNode, prevNode := none }])
              j (some s.nodes.length)
          | none => s.nodes ++ [{ value := v, nextNode := s._firstNode, prevNode := none }]
        _setMap := JSMap.set s._setMap v s.nodes.length
        _firstNode := some s.nodes.length
        _lastNode := match s._lastNode with | none => some s.nodes.length | some l => some l } := by
  simp only [addFirst, hv]
  rfl

/-- `addFirst` on an absent value prepends a fresh chain node at the front. -/
theorem Chain.addFirst_absent [DecidableEq V] {s : ReverseIterableSet V} {ids : List Nat}
    (h : Chain s ids) {v : V} (hv : s.has v = false) :
    Chain (s.addFirst v) (s.nodes.length :: ids) := by
  have hgv : JSMap.get s._setMap v = none := has_eq_false_iff.mp hv
  have hvkeys : v ∉ s._setMap.map Prod.fst := JSMap.get_eq_none_iff.mp hgv
  have hsmap : (s.addFirst v)._setMap = s._setMap ++ [(v, s.nodes.length)] := by
    rw [addFirst_eq_of_absent hv]
    exact JSMap.set_of_get_none hgv _
  have hfresh : ∀ k ∈ ids, k < s.nodes.length := fun k hk => h.lt_of_mem hk
  have hi0 : s.nodes.length ∉ ids := fun hmem => Nat.lt_irrefl _ (hfresh _ hmem)
  have hsfirst : (s.addFirst v)._firstNode = some s.nodes.length := by
    rw [addFirst_eq_of_absent hv]
  have hkeys : ((s.addFirst v)._setMap.map Prod.fst).Nodup := by
    rw [hsmap]
    simp only [List.map_append, List.nodup_append]
    exact ⟨h.keys_nodup, by simp, by simpa using fun hk => hvkeys hk⟩
  have hnodup : (s.nodes.length :: ids).Nodup := by
    simp only [List.nodup_cons]
    exact ⟨hi0, h.nodup⟩
  cases ids with
  | nil =>
    have hlast : s._lastNode = none := by rw [h.last_eq]; rfl
    have hfirst : s._firstNode = none := by rw [h.first_eq]; rfl
    have hmapnil : s._setMap = [] := by
      refine List.eq_nil_iff_forall_not_mem.mpr fun p hp => ?_
      have := (h.map_mem p hp).1
      simp at this
    have hsnodes : (s.addFirst v).nodes =
        s.nodes ++ [{ value := v, nextNode := none, prevNode := none }] := by
      rw [addFirst_eq_of_absent hv, hfirst]
    have hslast : (s.addFirst v)._lastNode = some s.nodes.length := by
      rw [addFirst_eq_of_absent hv, hlast]
    have hnew : (s.addFirst v).nodes.get? s.nodes.length =
        some { value := v, nextNode := none, prevNode := none } := by
      rw [hsnodes, get?_concat_len]
    refine ⟨?_, ?_, hnodup, hkeys, ?_, ?_⟩
    · rw [hsfirst]
      exact chainFromB_cons.mpr ⟨rfl, _, hnew, rfl, chainFromB_nil.mpr rfl⟩
    · rw [hslast]
      rfl
    · intro p hp
      rw [hsmap, hmapnil] at hp
      simp at hp
      obtain ⟨rfl, rfl⟩ := hp
      exact ⟨by simp, by rw [valAt_of_get hnew]⟩
    · intro i hi
      simp at hi
      subst hi
      rw [hsmap, hmapnil]
      exact ⟨(v, s.nodes.length), by simp, rfl⟩
  | cons f rest =>
    have hfirst : s._firstNode = some f := by rw [h.first_eq]; rfl
    have hfid : f ∈ f :: rest := List.mem_cons_self f rest
    obtain ⟨nf, hnf⟩ := h.node_of_mem hfid
    have hflt : f < s.nodes.length := h.lt_of_mem hfid
    have hfne : f ≠ s.nodes.length := Nat.ne_of_lt hflt
    have hfr : f ∉ rest := (List.nodup_cons.mp h.nodup).1
    have hsnodes : (s.addFirst v).nodes =
        setPrev (s.nodes ++ [{ value := v, nextNode := some f, prevNode := none }])
          f (some s.nodes.length) := by
      rw [addFirst_eq_of_absent hv, hfirst]
    have hslast : (s.addFirst v)._lastNode = s._lastNode := by
      have hlast_ne : s._lastNode ≠ none := by
        rw [h.last_eq]
        cases hrl : (f :: rest).getLast? with
        | none => simp at hrl
        | some x => simp
      obtain ⟨x, hx⟩ := Option.ne_none_iff_exists.mp hlast_ne
      rw [addFirst_eq_of_absent hv, ← hx]
    have harena : ∀ k, k ≠ f → k < s.nodes.length →
        (s.addFirst v).nodes.get? k = s.nodes.get? k := by
      intro k hkf hklt
      rw [hsnodes, get?_setPrev_ne hkf, get?_append_lt hklt]
    have harena_f : (s.addFirst v).nodes.get? f =
        some { nf with prevNode := some s.nodes.length } := by
      rw [hsnodes]
      exact get?_setPrev_self (by rw [get?_append_lt hflt]; exact hnf) _
    have harena_new : (s.addFirst v).nodes.get? s.nodes.length =
        some { value := v, nextNode := some f, prevNode := none } := by
      rw [hsnodes, get?_setPrev_ne (Ne.symm hfne), get?_concat_len]
    have hval : ∀ k ∈ f :: rest, valAt (s.addFirst v) k = valAt s k := by
      intro k hk
      by_cases hkf : k = f
      · subst hkf
        rw [valAt_of_get harena_f, valAt_of_get hnf]
      · exact valAt_congr (harena k hkf (hfresh k hk))
    have hch := h.chain
    rw [hfirst] at hch
    obtain ⟨-, nf', hnf', hpf, hrest⟩ := chainFromB_cons.mp hch
    have hnn : nf' = nf := by rw [hnf] at hnf'; exact (Option.some.inj hnf').symm
    subst hnn
    refine ⟨?_, ?_, hnodup, hkeys, ?_, ?_⟩
    · rw [hsfirst]
      refine chainFromB_cons.mpr ⟨rfl, _, harena_new, rfl, ?_⟩
      refine chainFromB_cons.mpr ⟨rfl, _, harena_f, rfl, ?_⟩
      rw [chainFromB_congr
        (fun k hk => harena k (fun hkf => hfr (hkf ▸ hk)) (hfresh k (by simp [hk])))]
      exact hrest
    · rw [hslast, h.last_eq]
      rfl
    · intro p hp
      rw [hsmap] at hp
      rcases List.mem_append.mp hp with hp | hp
      · obtain ⟨hpid, hpval⟩ := h.map_mem p hp
        exact ⟨List.mem_cons_of_mem _ hpid, by rw [hval p.2 hpid]; exact hpval⟩
      · simp at hp
        rw [hp]
        exact ⟨by simp, by rw [valAt_of_get harena_new]⟩
    · intro i hi
      rw [hsmap]
      rcases List.mem_cons.mp hi with rfl | hi
      · exact ⟨(v, s.nodes.length), by simp, rfl⟩
      · obtain ⟨p, hp, hpi⟩ := h.mem_map i hi
        exact ⟨p, by simp [hp], hpi⟩

end ReverseIterableSet

namespace ReverseIterableSet

variable {V U W : Type}

theorem value_setNext (nodes : List (ReverseIterableSetNode V)) (j : Nat) (x : Option Nat)
    (k : Nat) :
    ((setNext nodes j x).get? k).map ReverseIterableSetNode.value =
      (nodes.get? k).map ReverseIterableSetNode.value := by
  by_cases hkj : k = j
  · subst hkj
    cases hk : nodes.get? k with
    | none =>
      unfold setNext
      rw [hk]
      exact congrArg (Option.map ReverseIterableSetNode.value) hk
    | some n =>
      rw [get?_setNext_self hk]
      rfl
  · rw [get?_setNext_ne hkj]

theorem value_setPrev (nodes : List (ReverseIterableSetNode V)) (j : Nat) (x : Option Nat)
    (k : Nat) :
    ((setPrev nodes j x).get? k).map ReverseIterableSetNode.value =
      (nodes.get? k).map ReverseIterableSetNode.value := by
  by_cases hkj : k = j
  · subst hkj
    cases hk : nodes.get? k with
    | none =>
      unfold setPrev
      rw [hk]
      exact congrArg (Option.map ReverseIterableSetNode.value) hk
    | some n =>
      rw [get?_setPrev_self hk]
      rfl
  · rw [get?_setPrev_ne hkj]

theorem delete_eq_mid [DecidableEq V] {s : ReverseIterableSet V} {v : V} {i p q : Nat}
    {n : ReverseIterableSetNode V} (hg : JSMap.get s._setMap v = some i)
    (hn : s.nodes.get? i = some n) (hp : n.prevNode = some p) (hq : n.nextNode = some q) :
    s.delete v = (true,
      { s with nodes := setPrev (setNext s.nodes p (some q)) q (some p)
               _setMap := JSMap.delete s._setMap v }) := by
  simp only [delete, hg, hn, hp, hq]

theorem delete_eq_last [DecidableEq V] {s : ReverseIterableSet V} {v : V} {i p : Nat}
    {n : ReverseIterableSetNode V} (hg : JSMap.get s._setMap v = some i)
    (hn : s.nodes.get? i = some n) (hp : n.prevNode = some p) (hq : n.nextNode = none) :
    s.delete v = (true,
      { s with nodes := setNext s.nodes p none
               _setMap := JSMap.delete s._setMap v
               _lastNode := some p }) := by
  simp only [delete, hg, hn, hp, hq]

theorem delete_eq_first [DecidableEq V] {s : ReverseIterableSet V} {v : V} {i q : Nat}
    {n : ReverseIterableSetNode V} (hg : JSMap.get s._setMap v = some i)
    (hn : s.nodes.get? i = some n) (hp : n.prevNode = none) (hq : n.nextNode = some q) :
    s.delete v = (true,
      { s with nodes := setPrev s.nodes q none
               _setMap := JSMap.delete s._setMap v
               _firstNode := some q }) := by
  simp only [delete, hg, hn, hp, hq]

theorem delete_eq_sole [DecidableEq V] {s : ReverseIterableSet V} {v : V} {i : Nat}
    {n : ReverseIterableSetNode V} (hg : JSMap.get s._setMap v = some i)
    (hn : s.nodes.get? i = some n) (hp : n.prevNode = none) (hq : n.nextNode = none) :
    s.delete v = (true,
      { s with _setMap := JSMap.delete s._setMap v
               _firstNode := none
               _lastNode := none }) := by
  simp only [delete, hg, hn, hp, hq]

/-- The map facts of the chain invariant after deleting the entry of node `i`,
shared by the four splice cases. -/
theorem delete_map_side [DecidableEq V] {s : ReverseIterableSet V} {ids : List Nat}
    (l₁ l₂ : List Nat) {i : Nat} {v : V} (h : Chain s ids) (hsplit : ids = l₁ ++ i :: l₂)
    (hgv : JSMap.get s._setMap v = some i) (t : ReverseIterableSet V)
    (hmap : t._setMap = JSMap.delete s._setMap v)
    (hval : ∀ k, valAt t k = valAt s k) :
    (t._setMap.map Prod.fst).Nodup ∧
      (∀ p ∈ t._setMap, p.2 ∈ l₁ ++ l₂ ∧ valAt t p.2 = some p.1) ∧
      (∀ k ∈ l₁ ++ l₂, ∃ p ∈ t._setMap, p.2 = k) := by
  have hvi : valAt s i = some v := (h.get_some hgv).2
  have hinotin : i ∉ l₁ ++ l₂ := by
    have := h.nodup
    rw [hsplit] at this
    have h1 := (List.nodup_append.mp this).1
    have h2 := (List.nodup_append.mp this).2.1
    have hd := (List.nodup_append.mp this).2.2
    rw [List.mem_append]
    rintro (hmem | hmem)
    · exact hd hmem (by simp)
    · exact (List.nodup_cons.mp h2).1 hmem
  refine ⟨?_, ?_, ?_⟩
  · rw [hmap]
    exact h.keys_nodup.sublist (List.Sublist.map _ (JSMap.delete_sublist _ _))
  · intro p hp
    rw [hmap] at hp
    obtain ⟨hpmem, hpne⟩ := (JSMap.mem_delete_iff h.keys_nodup).mp hp
    obtain ⟨hpid, hpval⟩ := h.map_mem p hpmem
    have hpi : p.2 ≠ i := by
      intro he
      rw [he, hvi] at hpval
      exact hpne (Option.some.inj hpval).symm
    have hpid2 : p.2 ∈ l₁ ++ l₂ := by
      rw [hsplit] at hpid
      rw [List.mem_append] at hpid ⊢
      rcases hpid with hmem | hmem
      · exact Or.inl hmem
      · rcases List.mem_cons.mp hmem with he | hmem
        · exact absurd he hpi
        · exact Or.inr hmem
    exact ⟨hpid2, by rw [hval]; exact hpval⟩
  · intro k hk
    have hkid : k ∈ ids := by
      rw [hsplit]
      rw [List.mem_append] at hk ⊢
      rcases hk with hmem | hmem
      · exact Or.inl hmem
      · exact Or.inr (List.mem_cons_of_mem _ hmem)
    obtain ⟨p, hp, hpk⟩ := h.mem_map k hkid
    have hki : k ≠ i := fun he => hinotin (he ▸ hk)
    have hpne : p.1 ≠ v := by
      intro he
      have : p = (v, p.2) := Prod.ext he rfl
      have hgp : JSMap.get s._setMap v = some p.2 := by
        rw [← he]
        exact JSMap.mem_get h.keys_nodup (by simpa using hp)
      rw [hgv] at hgp
      have hip : i = p.2 := Option.some.inj hgp
      refine hki ?_
      rw [← hpk]
      exact hip.symm
    refine ⟨p, ?_, hpk⟩
    rw [hmap]
    exact (JSMap.mem_delete_iff h.keys_nodup).mpr ⟨hp, hpne⟩

end ReverseIterableSet

namespace ReverseIterableSet

variable {V U W : Type}

theorem getLast?_middle (l₁ : List Nat) (i q : Nat) (l₂ : List Nat) :
    (l₁ ++ i :: q :: l₂).getLast? = (l₁ ++ q :: l₂).getLast? := by
  rw [List.getLast?_append, List.getLast?_append, List.getLast?_cons_cons]

/-- `delete` on a present value reports success and splices its node out of the
chain, leaving every stored value in place. -/
theorem Chain.delete_present [DecidableEq V] {s : ReverseIterableSet V}
    {ids l₁ l₂ : List Nat} {i : Nat} {v : V} (h : Chain s ids)
    (hgv : JSMap.get s._setMap v = some i) (hsplit : ids = l₁ ++ i :: l₂) :
    (s.delete v).1 = true ∧ Chain (s.delete v).2 (l₁ ++ l₂) ∧
      ∀ k, valAt (s.delete v).2 k = valAt s k := by
  subst hsplit
  have hii : i ∈ l₁ ++ i :: l₂ := by simp
  have hnd := h.nodup
  rw [List.nodup_append] at hnd
  obtain ⟨hnd1, hnd2', hdisj⟩ := hnd
  obtain ⟨hil2, hnd2⟩ := List.nodup_cons.mp hnd2'
  have hil1 : i ∉ l₁ := fun hm => hdisj hm (by simp)
  obtain ⟨mid, h1, h2⟩ := chainFromB_append.mp h.chain
  obtain ⟨hmid, n, hn, hpn, hc2⟩ := chainFromB_cons.mp h2
  subst hmid
  rcases List.eq_nil_or_concat' l₁ with rfl | ⟨l₁x, p, rfl⟩
  · -- `i` is the first node
    have hprev : n.prevNode = none := hpn
    have hfirst : s._firstNode = some i := chainFromB_nil.mp h1
    cases l₂ with
    | nil =>
      -- sole node: reset both endpoint references
      have hnext : n.nextNode = none := chainFromB_nil.mp hc2
      rw [delete_eq_sole hgv hn hprev hnext]
      have hside := delete_map_side [] [] h rfl hgv
        { s with _setMap := JSMap.delete s._setMap v
                 _firstNode := none
                 _lastNode := none } rfl (fun k => rfl)
      exact ⟨rfl, ⟨chainFromB_nil.mpr rfl, rfl, by simp, hside.1, hside.2.1, hside.2.2⟩,
        fun k => rfl⟩
    | cons q l₂x =>
      -- first node with a successor: advance `_firstNode`
      obtain ⟨hnext, nq, hnq, hnqp, hc3⟩ := chainFromB_cons.mp hc2
      have hqi : q ≠ i := fun he => hil2 (he ▸ List.mem_cons_self q l₂x)
      have hql2 : q ∉ l₂x := (List.nodup_cons.mp hnd2).1
      rw [delete_eq_first hgv hn hprev hnext]
      have hval : ∀ k,
          valAt { s with nodes := setPrev s.nodes q none
                         _setMap := JSMap.delete s._setMap v
                         _firstNode := some q } k = valAt s k := by
        intro k
        simp only [valAt]
        exact value_setPrev s.nodes q none k
      have hside := delete_map_side [] (q :: l₂x) h rfl hgv _ rfl hval
      refine ⟨rfl, ⟨?_, ?_, hnd2, hside.1, hside.2.1, hside.2.2⟩, hval⟩
      · show chainFromB _ none (some q) none (q :: l₂x) = true
        refine chainFromB_cons.mpr ⟨rfl, _, get?_setPrev_self hnq none, rfl, ?_⟩
        rw [chainFromB_congr (fun k hk =>
          get?_setPrev_ne (fun hkq => hql2 (by rw [← hkq]; exact hk)) none)]
        exact hc3
      · show s._lastNode = ([] ++ q :: l₂x).getLast?
        rw [h.last_eq]
        exact getLast?_middle [] i q l₂x
  · -- `i` has a predecessor `p`
    have hprev : n.prevNode = some p := by rw [hpn, prevEnd_concat]
    have hpl1 : p ∈ l₁x ++ [p] := by simp
    have hpi : p ≠ i := fun he => hil1 (he ▸ hpl1)
    have hpl1x : p ∉ l₁x := by
      have hd := (List.nodup_append.mp hnd1).2.2
      intro hm
      exact hd hm (by simp)
    obtain ⟨mid₂, h1a, h1b⟩ := chainFromB_append.mp h1
    obtain ⟨hmid₂, np, hnp, hnpp, hnpnil⟩ := chainFromB_cons.mp h1b
    subst hmid₂
    have hnpnext : np.nextNode = some i := chainFromB_nil.mp hnpnil
    cases l₂ with
    | nil =>
      -- last node: retreat `_lastNode`
      have hnext : n.nextNode = none := chainFromB_nil.mp hc2
      rw [delete_eq_last hgv hn hprev hnext]
      have hval : ∀ k,
          valAt { s with nodes := setNext s.nodes p none
                         _setMap := JSMap.delete s._setMap v
                         _lastNode := some p } k = valAt s k := by
        intro k
        simp only [valAt]
        exact value_setNext s.nodes p none k
      have hside := delete_map_side (l₁x ++ [p]) [] h rfl hgv _ rfl hval
      refine ⟨rfl, ⟨?_, ?_, by rw [List.append_nil]; exact hnd1, hside.1, hside.2.1, hside.2.2⟩, hval⟩
      · show chainFromB _ none s._firstNode none (l₁x ++ [p] ++ []) = true
        rw [List.append_nil]
        refine chainFromB_append.mpr ⟨some p, ?_, ?_⟩
        · rw [chainFromB_congr (fun k hk =>
            get?_setNext_ne (fun hkp => hpl1x (by rw [← hkp]; exact hk)) none)]
          exact h1a
        · exact chainFromB_cons.mpr
            ⟨rfl, _, get?_setNext_self hnp none, hnpp, chainFromB_nil.mpr rfl⟩
      · show some p = (l₁x ++ [p] ++ []).getLast?
        rw [List.append_nil, List.getLast?_concat]
    | cons q l₂x =>
      -- interior node: link the two neighbours directly
      obtain ⟨hnext, nq, hnq, hnqp, hc3⟩ := chainFromB_cons.mp hc2
      have hqi : q ≠ i := fun he => hil2 (he ▸ List.mem_cons_self q l₂x)
      have hql2 : q ∉ l₂x := (List.nodup_cons.mp hnd2).1
      have hpq : p ≠ q := fun he => hdisj hpl1 (he ▸ by simp)
      rw [delete_eq_mid hgv hn hprev hnext]
      have harena_p :
          (setPrev (setNext s.nodes p (some q)) q (some p)).get? p =
            some { np with nextNode := some q } := by
        rw [get?_setPrev_ne hpq, get?_setNext_self hnp]
      have harena_q :
          (setPrev (setNext s.nodes p (some q)) q (some p)).get? q =
            some { nq with prevNode := some p } := by
        refine get?_setPrev_self ?_ _
        rw [get?_setNext_ne (Ne.symm hpq)]
        exact hnq
      have harena : ∀ k, k ≠ p → k ≠ q →
          (setPrev (setNext s.nodes p (some q)) q (some p)).get? k = s.nodes.get? k := by
        intro k hkp hkq
        rw [get?_setPrev_ne hkq, get?_setNext_ne hkp]
      have hval : ∀ k,
          valAt { s with nodes := setPrev (setNext s.nodes p (some q)) q (some p)
                         _setMap := JSMap.delete s._setMap v } k = valAt s k := by
        intro k
        simp only [valAt]
        show ((setPrev (setNext s.nodes p (some q)) q (some p)).get? k).map _ =
          (s.nodes.get? k).map _
        rw [value_setPrev, value_setNext]
      have hside := delete_map_side (l₁x ++ [p]) (q :: l₂x) h rfl hgv _ rfl hval
      have hnodup3 : (l₁x ++ [p] ++ (q :: l₂x)).Nodup := by
        rw [List.nodup_append]
        exact ⟨hnd1, hnd2, fun a ha hb => hdisj ha (List.mem_cons_of_mem _ hb)⟩
      refine ⟨rfl, ⟨?_, ?_, hnodup3, hside.1, hside.2.1, hside.2.2⟩, hval⟩
      · show chainFromB _ none s._firstNode none (l₁x ++ [p] ++ (q :: l₂x)) = true
        refine chainFromB_append.mpr ⟨some q, ?_, ?_⟩
        · refine chainFromB_append.mpr ⟨some p, ?_, ?_⟩
          · rw [chainFromB_congr (fun k hk =>
              harena k (fun hkp => hpl1x (by rw [← hkp]; exact hk))
                (fun hkq => hdisj (a := k) (by simp [hk]) (by rw [hkq]; simp)))]
            exact h1a
          · exact chainFromB_cons.mpr
              ⟨rfl, _, harena_p, hnpp, chainFromB_nil.mpr rfl⟩
        · rw [prevEnd_concat]
          refine chainFromB_cons.mpr ⟨rfl, _, harena_q, rfl, ?_⟩
          rw [chainFromB_congr (fun k hk =>
            harena k (fun hkp => hdisj hpl1 (by rw [← hkp]; simp [hk]))
              (fun hkq => hql2 (by rw [← hkq]; exact hk)))]
          exact hc3
      · show s._lastNode = (l₁x ++ [p] ++ (q :: l₂x)).getLast?
        rw [h.last_eq]
        exact getLast?_middle (l₁x ++ [p]) i q l₂x

end ReverseIterableSet

namespace ReverseIterableSet

variable {V U W : Type}

theorem add_of_present [DecidableEq V] {s : ReverseIterableSet V} {v : V}
    (hv : s.has v = true) : s.add v = s := by
  simp [add, hv]

theorem addFirst_of_present [DecidableEq V] {s : ReverseIterableSet V} {v : V}
    (hv : s.has v = true) : s.addFirst v = s := by
  simp [addFirst, hv]

theorem delete_of_absent [DecidableEq V] {s : ReverseIterableSet V} {v : V}
    (hv : JSMap.get s._setMap v = none) : s.delete v = (false, s) := by
  simp only [delete, hv]

theorem chain_empty (V : Type) : Chain (empty V) [] := by
  refine ⟨chainFromB_nil.mpr rfl, rfl, by simp, ?_, ?_, ?_⟩
  · show (([] : List (V × Nat)).map Prod.fst).Nodup
    simp
  · intro p hp
    simp [empty] at hp
  · intro i hi
    simp at hi

theorem chain_clear (s : ReverseIterableSet V) : Chain (s.clear) [] := by
  refine ⟨chainFromB_nil.mpr rfl, rfl, by simp, ?_, ?_, ?_⟩
  · show (([] : List (V × Nat)).map Prod.fst).Nodup
    simp
  · intro p hp
    simp [clear] at hp
  · intro i hi
    simp at hi

theorem Inv.add_inv [DecidableEq V] {s : ReverseIterableSet V} (h : Inv s) (v : V) :
    Inv (s.add v) := by
  obtain ⟨ids, hc⟩ := h
  cases hv : s.has v with
  | true => exact ⟨ids, by rw [add_of_present hv]; exact hc⟩
  | false => exact ⟨ids ++ [s.nodes.length], hc.add_absent hv⟩

theorem Inv.addFirst_inv [DecidableEq V] {s : ReverseIterableSet V} (h : Inv s) (v : V) :
    Inv (s.addFirst v) := by
  obtain ⟨ids, hc⟩ := h
  cases hv : s.has v with
  | true => exact ⟨ids, by rw [addFirst_of_present hv]; exact hc⟩
  | false => exact ⟨s.nodes.length :: ids, hc.addFirst_absent hv⟩

theorem Inv.delete_inv [DecidableEq V] {s : ReverseIterableSet V} (h : Inv s) (v : V) :
    Inv (s.delete v).2 := by
  obtain ⟨ids, hc⟩ := h
  cases hg : JSMap.get s._setMap v with
  | none => exact ⟨ids, by rw [delete_of_absent hg]; exact hc⟩
  | some i =>
    obtain ⟨l₁, l₂, hsplit⟩ := List.append_of_mem (hc.get_some hg).1
    exact ⟨l₁ ++ l₂, (hc.delete_present hg hsplit).2.1⟩

theorem Inv.clear_inv (s : ReverseIterableSet V) : Inv (s.clear) :=
  ⟨[], chain_clear s⟩

theorem Inv.foldl_add [DecidableEq V] :
    ∀ (l : List V) (s : ReverseIterableSet V), Inv s → Inv (l.foldl add s) := by
  intro l
  induction l with
  | nil => exact fun s h => h
  | cons x l ih => exact fun s h => ih (s.add x) (h.add_inv x)

theorem Inv.ofList_inv [DecidableEq V] (l : List V) : Inv (ofList l) :=
  Inv.foldl_add l (empty V) ⟨[], chain_empty V⟩

end ReverseIterableSet

/-! ## Collecting cursors over a well-formed set -/

namespace ReverseIterableSet

variable {V U W : Type}

theorem Chain.collect_forward {s : ReverseIterableSet V} {ids : List Nat} (h : Chain s ids)
    {g : ReverseIterableSetNode V → Option W}
    (hsome : ∀ i ∈ ids, (nodeVal? s g i).isSome) {fuel : Nat} (hf : ids.length ≤ fuel) :
    collect s g fuel (values s) = ids.filterMap (nodeVal? s g) :=
  collect_of_chainFrom h.chain rfl rfl hf hsome

theorem Chain.collect_reverse {s : ReverseIterableSet V} {ids : List Nat} (h : Chain s ids)
    {g : ReverseIterableSetNode V → Option W}
    (hsome : ∀ i ∈ ids, (nodeVal? s g i).isSome) {fuel : Nat} (hf : ids.length ≤ fuel) :
    collect s g fuel (s.reverseIterator) = ids.reverse.filterMap (nodeVal? s g) := by
  rcases List.eq_nil_or_concat' ids with rfl | ⟨l, j, rfl⟩
  · have hcur : (s.reverseIterator).currentNode = none := by
      show s._lastNode = none
      rw [h.last_eq]
      rfl
    simp [collect_of_none hcur]
  · have hb := chainBack_of_chainFrom h.chain
    have hcur : (s.reverseIterator).currentNode = some j := by
      show s._lastNode = some j
      rw [h.last_eq, List.getLast?_concat]
    have hlen : (j :: l.reverse).length ≤ fuel := by simpa using hf
    have hsome2 : ∀ i ∈ j :: l.reverse, (nodeVal? s g i).isSome := by
      intro i hi
      apply hsome
      rcases List.mem_cons.mp hi with rfl | hi
      · simp
      · simp [List.mem_reverse.mp hi]
    rw [collect_of_chainBack hb hcur rfl hlen hsome2]
    simp

theorem Chain.collect_anchor_back {s : ReverseIterableSet V} {ids l₁ l₂ : List Nat}
    {i : Nat} (h : Chain s ids) (hsplit : ids = l₁ ++ i :: l₂)
    {g : ReverseIterableSetNode V → Option W} {it : ReverseIterableIterator}
    (hcur : it.currentNode = some i) (hbwd : it.forwards = false)
    (hsome : ∀ j ∈ ids, (nodeVal? s g j).isSome) {fuel : Nat} (hf : ids.length ≤ fuel) :
    collect s g fuel it = ((l₁ ++ [i]).filterMap (nodeVal? s g)).reverse := by
  subst hsplit
  have hch : chainFromB s none s._firstNode none ((l₁ ++ [i]) ++ l₂) = true := by
    simpa using h.chain
  obtain ⟨mid, h1, h2⟩ := chainFromB_append.mp hch
  have hb := chainBack_of_chainFrom h1
  have hlen : (i :: l₁.reverse).length ≤ fuel := by
    simp at hf ⊢
    omega
  have hsome2 : ∀ j ∈ i :: l₁.reverse, (nodeVal? s g j).isSome := by
    intro j hj
    apply hsome
    rcases List.mem_cons.mp hj with rfl | hj
    · simp
    · simp [List.mem_reverse.mp hj]
  rw [collect_of_chainBack hb hcur hbwd hlen hsome2, ← List.filterMap_reverse]
  simp

/-- When `undefined` is not an element, every chain node produces a value. -/
theorem Chain.no_undef_isSome [DecidableEq U] {s : ReverseIterableSet (Option U)}
    {ids : List Nat} (h : Chain s ids) (hu : (none : Option U) ∉ valsOf s ids) :
    ∀ i ∈ ids, (nodeVal? s valuesGetter i).isSome := by
  intro i hi
  obtain ⟨n, hn⟩ := h.node_of_mem hi
  rw [nodeVal?_eq (g := valuesGetter) hn]
  cases hv : n.value with
  | some u => simp [valuesGetter, hv]
  | none =>
    exact absurd (List.mem_filterMap.mpr ⟨i, hi, by rw [valAt_of_get hn, hv]⟩) hu

end ReverseIterableSet

/-! ## Cursors derived from the public entry points -/

namespace ReverseIterableSet

variable {V U W : Type}

theorem stepN_fixed {s : ReverseIterableSet V} {g : ReverseIterableSetNode V → Option W}
    {it : ReverseIterableIterator} (h : (ReverseIterableIterator.next s g it).2 = it) :
    ∀ k, stepN s g k it = it := by
  intro k
  induction k with
  | zero => rfl
  | succ k ih =>
    show stepN s g k (ReverseIterableIterator.next s g it).2 = it
    rw [h, ih]

theorem onChain_next {s : ReverseIterableSet V} {ids : List Nat} (h : Chain s ids)
    {g : ReverseIterableSetNode V → Option W} {it : ReverseIterableIterator}
    (hit : onChain ids it) : onChain ids (ReverseIterableIterator.next s g it).2 := by
  rcases hit with hnone | ⟨i, hi, hcur⟩
  · rw [next_of_none hnone]
    exact Or.inl hnone
  · obtain ⟨n, hn⟩ := h.node_of_mem hi
    rw [next_of_some hcur hn]
    show (if it.forwards then n.nextNode else n.prevNode) = none ∨
      ∃ j ∈ ids, (if it.forwards then n.nextNode else n.prevNode) = some j
    have hcl := h.closed hi hn
    cases it.forwards with
    | true => simpa using hcl.1
    | false => simpa using hcl.2

theorem onChain_stepN {s : ReverseIterableSet V} {ids : List Nat} (h : Chain s ids)
    {g : ReverseIterableSetNode V → Option W} :
    ∀ (k : Nat) {it : ReverseIterableIterator}, onChain ids it →
      onChain ids (stepN s g k it) := by
  intro k
  induction k with
  | zero => exact fun hit => hit
  | succ k ih =>
    intro it hit
    exact ih (onChain_next h hit)

theorem onChain_values {s : ReverseIterableSet V} {ids : List Nat} (h : Chain s ids) :
    onChain ids (s.values) := by
  show s._firstNode = none ∨ ∃ i ∈ ids, s._firstNode = some i
  rw [h.first_eq]
  cases ids with
  | nil => exact Or.inl rfl
  | cons i ids => exact Or.inr ⟨i, by simp, rfl⟩

theorem onChain_reverseIterator {s : ReverseIterableSet V} {ids : List Nat}
    (h : Chain s ids) : onChain ids (s.reverseIterator) := by
  show s._lastNode = none ∨ ∃ i ∈ ids, s._lastNode = some i
  rw [h.last_eq]
  cases hl : ids.getLast? with
  | none => exact Or.inl rfl
  | some i => exact Or.inr ⟨i, List.mem_of_mem_getLast? hl, rfl⟩

theorem onChain_iteratorFor [DecidableEq V] {s : ReverseIterableSet V} {ids : List Nat}
    (h : Chain s ids) (v : V) : onChain ids (s.iteratorFor v) := by
  show (match JSMap.get s._setMap v with
    | some i => some i
    | none => s._firstNode) = none ∨ ∃ i ∈ ids, (match JSMap.get s._setMap v with
    | some i => some i
    | none => s._firstNode) = some i
  cases hg : JSMap.get s._setMap v with
  | none => exact onChain_values h
  | some i => exact Or.inr ⟨i, (h.get_some hg).1, rfl⟩

theorem DerivedCursor.onChain [DecidableEq V] {s : ReverseIterableSet V} {ids : List Nat}
    (h : Chain s ids) {g : ReverseIterableSetNode V → Option W}
    {it : ReverseIterableIterator} (hd : s.DerivedCursor g it) :
    ReverseIterableSet.onChain ids it := by
  obtain ⟨it₀, k, horig, rfl⟩ := hd
  refine onChain_stepN h k ?_
  rcases horig with rfl | rfl | ⟨v, rfl⟩
  · exact onChain_values h
  · exact onChain_reverseIterator h
  · exact onChain_iteratorFor h v

theorem Chain.length_le {s : ReverseIterableSet V} {ids : List Nat} (h : Chain s ids) :
    ids.length ≤ s.nodes.length := by
  have hsub : ids ⊆ List.range s.nodes.length :=
    fun i hi => List.mem_range.mpr (h.lt_of_mem hi)
  simpa using (List.subperm_of_subset h.nodup hsub).length_le

theorem delete_fst [DecidableEq V] (s : ReverseIterableSet V) (v : V) :
    (s.delete v).1 = s.has v := by
  cases hg : JSMap.get s._setMap v with
  | none => simp [delete, has, JSMap.hasKey, hg]
  | some i => simp [delete, has, JSMap.hasKey, hg]

end ReverseIterableSet

/-! ## The claims -/

open ReverseIterableSet

/-- C1 counterexample: in the set `{0}`, starting a cursor at the absent value `1`
is not immediately exhausted — the very first `next()` yields the set's first
element `0` with `done = false`, contradicting the claim. -/
theorem c1_counterexample :
    has exSingle (some 1) = false ∧
      (ReverseIterableIterator.next exSingle valuesGetter
        (iteratorFor exSingle (some 1))).1 = (some 0, false) := by
  constructor <;> rfl

/-- C1 (amended): `iteratorFor` on an absent value does not produce an immediately
exhausted cursor; because the missing `startNode` argument is `undefined`, the
cursor falls back to the set's first node and is identical to the one returned by
`values()`.  It is immediately exhausted only when the set itself is empty. -/
theorem c1_iteratorFor_absent {V : Type} [DecidableEq V]
    (s : ReverseIterableSet V) (v : V) (hv : s.has v = false) :
    s.iteratorFor v = s.values := by
  unfold ReverseIterableSet.iteratorFor ReverseIterableSet.values
  rw [has_eq_false_iff.mp hv]

/-- C1 witness. -/
theorem c1_witness :
    has exSingle (some 1) = false ∧
      iteratorFor exSingle (some 1) = values exSingle :=
  ⟨by decide, c1_iteratorFor_absent exSingle (some 1) (by decide)⟩

/-- C3: when the set contains the value `undefined` as an element, the `values()`
cursor marks a step `done` exactly when the value it produces is `undefined`; it
therefore signals end-of-sequence at that element while still advancing past it,
and the following `next()` yields the successor element as not-done. -/
theorem c3_undefined_element {U : Type} [DecidableEq U]
    (s : ReverseIterableSet (Option U)) (it : ReverseIterableIterator) (i j : Nat)
    (n m : ReverseIterableSetNode (Option U)) (w : U)
    (hcur : it.currentNode = some i) (hfwd : it.forwards = true)
    (hn : s.nodes.get? i = some n) (hval : n.value = none)
    (hnext : n.nextNode = some j) (hm : s.nodes.get? j = some m)
    (hmv : m.value = some w) :
    (∀ (t : ReverseIterableSet (Option U)) (it2 : ReverseIterableIterator),
      (ReverseIterableIterator.next t valuesGetter it2).1.2 =
        ((ReverseIterableIterator.next t valuesGetter it2).1.1).isNone) ∧
    ReverseIterableIterator.next s valuesGetter it =
      ((none, true), { it with currentNode := some j }) ∧
    (ReverseIterableIterator.next s valuesGetter { it with currentNode := some j }).1 =
      (some w, false) := by
  refine ⟨?_, ?_, ?_⟩
  · intro t it2
    rcases h2 : it2.currentNode with - | i2
    · rw [next_of_none h2]
      rfl
    · rcases hg : t.nodes.get? i2 with - | n2
      · rw [next_of_dangling h2 hg]
        rfl
      · rw [next_of_some h2 hg]
  · rw [next_fwd hcur hfwd hn]
    show ((n.value, n.value.isNone), _) = _
    rw [hval, hnext]
    rfl
  · have hc2 : ({ it with currentNode := some j } :
        ReverseIterableIterator).currentNode = some j := rfl
    rw [next_fwd hc2 hfwd hm]
    show (m.value, m.value.isNone) = _
    rw [hmv]
    rfl

/-- C3 witness: in the set `{undefined, 0}` the values cursor reports done at the
`undefined` element and then yields `0` as not-done. -/
theorem c3_witness :
    (∀ (t : ReverseIterableSet (Option Nat)) (it2 : ReverseIterableIterator),
      (ReverseIterableIterator.next t valuesGetter it2).1.2 =
        ((ReverseIterableIterator.next t valuesGetter it2).1.1).isNone) ∧
    ReverseIterableIterator.next exUndef valuesGetter (values exUndef) =
      ((none, true), { values exUndef with currentNode := some 1 }) ∧
    (ReverseIterableIterator.next exUndef valuesGetter
      { values exUndef with currentNode := some 1 }).1 = (some 0, false) :=
  c3_undefined_element exUndef (values exUndef) 0 1
    { value := none, nextNode := some 1, prevNode := none }
    { value := some 0, nextNode := none, prevNode := some 0 } 0
    rfl rfl rfl rfl rfl rfl rfl

/-- C4 counterexample: in the set `{0}`, after the cursor from `values()` is
exhausted (its `next()` reports end-of-sequence), invoking `reverseIterator()` does
not leave it exhausted: the following `next()` yields the value `0` again. -/
theorem c4_counterexample :
    (ReverseIterableIterator.next exSingle valuesGetter
        (stepN exSingle valuesGetter 2 (values exSingle))).1.2 = true ∧
      (ReverseIterableIterator.next exSingle valuesGetter
        ((stepN exSingle valuesGetter 2 (values exSingle)).reverseIterator)).1 =
        (some 0, false) := by
  constructor <;> rfl

/-- C4 (amended): invoking `reverseIterator` never leaves a cursor exhausted; it
resets the position to the cursor's anchor — its captured `startNode` when anchored,
else the captured last node — with the direction flipped to backward.  On an
unanchored cursor over a nonempty set the following step therefore yields the last
element again (if its value is not `undefined`), so a consumer can traverse again
without requesting a fresh cursor. -/
theorem c4_reverse_resets {V W : Type} (s : ReverseIterableSet V)
    (g : ReverseIterableSetNode V → Option W) (it : ReverseIterableIterator)
    (i : Nat) (n : ReverseIterableSetNode V) (w : W)
    (hstart : it.startNode = none) (hlast : it.lastNode = some i)
    (hn : s.nodes.get? i = some n) (hw : g n = some w) :
    (∀ it2 : ReverseIterableIterator, ∀ j : Nat, it2.startNode = some j →
      (it2.reverseIterator).currentNode = some j ∧
        (it2.reverseIterator).forwards = false) ∧
    (it.reverseIterator).currentNode = some i ∧
    ReverseIterableIterator.next s g (it.reverseIterator) =
      ((some w, false), { it.reverseIterator with currentNode := n.prevNode }) := by
  have hcur : (it.reverseIterator).currentNode = some i := by
    show (match it.startNode with | some k => some k | none => it.lastNode) = some i
    rw [hstart, hlast]
  refine ⟨?_, hcur, ?_⟩
  · intro it2 j hj
    constructor
    · show (match it2.startNode with | some k => some k | none => it2.lastNode) = some j
      rw [hj]
    · rfl
  · rw [next_bwd hcur rfl hn]
    show ((g n, (g n).isNone), _) = _
    rw [hw]
    rfl

/-- C4 witness: reversing the exhausted cursor of `values()` over `{0}`. -/
theorem c4_witness :
    (∀ it2 : ReverseIterableIterator, ∀ j : Nat, it2.startNode = some j →
      (it2.reverseIterator).currentNode = some j ∧
        (it2.reverseIterator).forwards = false) ∧
    ((stepN exSingle valuesGetter 2 (values exSingle)).reverseIterator).currentNode =
      some 0 ∧
    ReverseIterableIterator.next exSingle valuesGetter
        ((stepN exSingle valuesGetter 2 (values exSingle)).reverseIterator) =
      ((some 0, false),
        { (stepN exSingle valuesGetter 2 (values exSingle)).reverseIterator with
            currentNode := none }) :=
  c4_reverse_resets exSingle valuesGetter
    (stepN exSingle valuesGetter 2 (values exSingle)) 0
    { value := some 0, nextNode := none, prevNode := none } 0
    rfl rfl rfl rfl

/-- C7: for the set built by inserting a, b, c, d, e in order, `iteratorFor("c")`
collects exactly `[c, d, e]`, and `iteratorFor("c")` immediately reversed collects
exactly `[c, b, a]`. -/
theorem c7_anchor_example :
    collectValues exampleSet (iteratorFor exampleSet (some "c")) = ["c", "d", "e"] ∧
      collectValues exampleSet
        ((iteratorFor exampleSet (some "c")).reverseIterator) = ["c", "b", "a"] := by
  constructor <;> rfl

/-- C8: `add` and `addFirst` with a value already present are exact no-ops — the
result is the set itself (hence position, size and iteration order are unchanged,
and the source's `return this` makes it the same object for chaining). -/
theorem c8_idempotent {V : Type} [DecidableEq V] (s : ReverseIterableSet V) (v : V)
    (hv : s.has v = true) :
    s.add v = s ∧ s.addFirst v = s ∧
      (s.add v).size = s.size ∧ (s.addFirst v).size = s.size :=
  ⟨add_of_present hv, addFirst_of_present hv,
    by rw [add_of_present hv], by rw [addFirst_of_present hv]⟩

/-- C8 witness. -/
theorem c8_witness :
    exNums.add (some 20) = exNums ∧ exNums.addFirst (some 20) = exNums ∧
      (exNums.add (some 20)).size = exNums.size ∧
      (exNums.addFirst (some 20)).size = exNums.size :=
  c8_idempotent exNums (some 20) (by decide)

/-- C2 counterexample: over the set `{undefined, 0}` the `values()` cursor first
reports end-of-sequence (`done = true`, no value) at the `undefined` element, yet
the next `next()` call yields `0` as not-done — exhaustion is not sticky. -/
theorem c2_counterexample :
    (ReverseIterableIterator.next exUndef valuesGetter (values exUndef)).1 =
        (none, true) ∧
      (ReverseIterableIterator.next exUndef valuesGetter
        (ReverseIterableIterator.next exUndef valuesGetter (values exUndef)).2).1 =
        (some 0, false) := by
  constructor <;> rfl

/-- C2 (amended): for every cursor obtained from `values()`, `entries()`,
`reverseIterator()` or `iteratorFor(value)` over a set that does not contain
`undefined` as an element, once `next()` reports end-of-sequence the cursor's state
is unchanged and every subsequent `next()` reports end-of-sequence with no value;
for pair-producing `entries()` cursors this holds for arbitrary sets. -/
theorem c2_sticky_exhaustion {U : Type} [DecidableEq U]
    (s : ReverseIterableSet (Option U)) (ids : List Nat) (h : Chain s ids)
    (hu : (none : Option U) ∉ valsOf s ids) (it : ReverseIterableIterator)
    (hder : s.DerivedCursor valuesGetter it)
    (hdone : (ReverseIterableIterator.next s valuesGetter it).1.2 = true) :
    (ReverseIterableIterator.next s valuesGetter it = ((none, true), it) ∧
      ∀ k, stepN s valuesGetter k it = it) ∧
    (∀ (t : ReverseIterableSet (Option U)) (it2 : ReverseIterableIterator),
      (ReverseIterableIterator.next t entriesGetter it2).1.2 = true →
        ReverseIterableIterator.next t entriesGetter it2 = ((none, true), it2) ∧
          ∀ k, stepN t entriesGetter k it2 = it2) := by
  constructor
  · rcases hder.onChain h with hnone | ⟨i, hi, hcur⟩
    · have hnx := next_of_none (s := s) (g := valuesGetter) hnone
      exact ⟨hnx, stepN_fixed (by rw [hnx])⟩
    · obtain ⟨n, hn⟩ := h.node_of_mem hi
      have hs := h.no_undef_isSome hu i hi
      rw [nodeVal?_eq (g := valuesGetter) hn] at hs
      rw [next_of_some hcur hn] at hdone
      simp only [iteratorResult] at hdone
      cases hnv : n.value with
      | some u =>
        exact absurd hdone (by simp [valuesGetter, hnv])
      | none =>
        exact absurd hs (by simp [valuesGetter, hnv])
  · intro t it2 hd2
    rcases h2 : it2.currentNode with - | i2
    · have hnx := next_of_none (s := t) (g := entriesGetter) h2
      exact ⟨hnx, stepN_fixed (by rw [hnx])⟩
    · rcases hg : t.nodes.get? i2 with - | n2
      · have hnx := next_of_dangling (s := t) (g := entriesGetter) h2 hg
        exact ⟨hnx, stepN_fixed (by rw [hnx])⟩
      · rw [next_of_some h2 hg] at hd2
        exact absurd hd2 (by simp [entriesGetter])

/-- C2 witness: the genuinely exhausted cursor over `{0}`. -/
theorem c2_witness :
    (ReverseIterableIterator.next exSingle valuesGetter
        (stepN exSingle valuesGetter 1 (values exSingle)) =
      ((none, true), stepN exSingle valuesGetter 1 (values exSingle)) ∧
      ∀ k, stepN exSingle valuesGetter k
          (stepN exSingle valuesGetter 1 (values exSingle)) =
        stepN exSingle valuesGetter 1 (values exSingle)) ∧
    (∀ (t : ReverseIterableSet (Option Nat)) (it2 : ReverseIterableIterator),
      (ReverseIterableIterator.next t entriesGetter it2).1.2 = true →
        ReverseIterableIterator.next t entriesGetter it2 = ((none, true), it2) ∧
          ∀ k, stepN t entriesGetter k it2 = it2) :=
  c2_sticky_exhaustion exSingle [0]
    ⟨by decide, by decide, by decide, by decide, by decide, by decide⟩
    (by decide)
    (stepN exSingle valuesGetter 1 (values exSingle))
    ⟨values exSingle, 1, Or.inl rfl, rfl⟩
    (by decide)

/-- C5: a cursor anchored at an existing element X (`iteratorFor(X)`), reversed at
any point of its life (after any number of `next` steps), is repositioned at X with
direction backward, and collecting it yields exactly the values from X back to the
start of the set — not a traversal from the set's opposite endpoint. -/
theorem c5_anchored_reverse {U : Type} [DecidableEq U]
    (s : ReverseIterableSet (Option U)) (ids l₁ l₂ : List Nat) (i : Nat)
    (v : Option U) (h : Chain s ids) (hgv : JSMap.get s._setMap v = some i)
    (hsplit : ids = l₁ ++ i :: l₂) (hu : (none : Option U) ∉ valsOf s ids) (k : Nat) :
    ((stepN s valuesGetter k (s.iteratorFor v)).reverseIterator).currentNode =
        some i ∧
    ((stepN s valuesGetter k (s.iteratorFor v)).reverseIterator).forwards = false ∧
    collectValues s ((stepN s valuesGetter k (s.iteratorFor v)).reverseIterator) =
      ((l₁ ++ [i]).filterMap (nodeVal? s valuesGetter)).reverse := by
  have hstart : (stepN s valuesGetter k (s.iteratorFor v)).startNode = some i := by
    rw [(stepN_fields s valuesGetter k (s.iteratorFor v)).1]
    show JSMap.get s._setMap v = some i
    exact hgv
  have hcur :
      ((stepN s valuesGetter k (s.iteratorFor v)).reverseIterator).currentNode =
        some i := by
    show (match (stepN s valuesGetter k (s.iteratorFor v)).startNode with
      | some x => some x
      | none => (stepN s valuesGetter k (s.iteratorFor v)).lastNode) = some i
    rw [hstart]
  refine ⟨hcur, rfl, ?_⟩
  exact h.collect_anchor_back hsplit hcur rfl (h.no_undef_isSome hu)
    (le_trans h.length_le (Nat.le_succ _))

/-- C5 witness: the set `{10, 20, 30}` anchored at `20`, stepped once, reversed. -/
theorem c5_witness :
    ((stepN exNums valuesGetter 1 (exNums.iteratorFor (some 20))).reverseIterator).currentNode =
        some 1 ∧
    ((stepN exNums valuesGetter 1 (exNums.iteratorFor (some 20))).reverseIterator).forwards =
        false ∧
    collectValues exNums
        ((stepN exNums valuesGetter 1 (exNums.iteratorFor (some 20))).reverseIterator) =
      (([0] ++ [1]).filterMap (nodeVal? exNums valuesGetter)).reverse :=
  c5_anchored_reverse exNums [0, 1, 2] [0] [2] 1 (some 20)
    ⟨by decide, by decide, by decide, by decide, by decide, by decide⟩
    (by decide) (by decide) (by decide) 1

/-- C6 counterexample: over the set `{undefined, 0}` the reverse cursor collects
`[0]` while the reversal of the forward collection is `[]` — collection stops at
the `undefined` element in each direction, so reverse is not the mirror of
forward for every set. -/
theorem c6_counterexample :
    collectValues exUndef (exUndef.reverseIterator) = [0] ∧
      (collectValues exUndef (values exUndef)).reverse = [] := by
  constructor <;> rfl

/-- C6 (amended): for every set that does not contain `undefined` as an element,
collecting the reverse cursor (`reverseIterator()`) yields exactly the reversal of
the list collected from the forward cursor (`values()`). -/
theorem c6_reverse_mirror {U : Type} [DecidableEq U]
    (s : ReverseIterableSet (Option U)) (ids : List Nat) (h : Chain s ids)
    (hu : (none : Option U) ∉ valsOf s ids) :
    collectValues s (s.reverseIterator) = (collectValues s (values s)).reverse := by
  have hsome := h.no_undef_isSome hu
  have hf : ids.length ≤ s.nodes.length + 1 := le_trans h.length_le (Nat.le_succ _)
  show collect s valuesGetter _ _ = (collect s valuesGetter _ _).reverse
  rw [h.collect_forward hsome hf, h.collect_reverse hsome hf, List.filterMap_reverse]

/-- C6 witness. -/
theorem c6_witness :
    collectValues exNums (exNums.reverseIterator) =
      (collectValues exNums (values exNums)).reverse :=
  c6_reverse_mirror exNums [0, 1, 2]
    ⟨by decide, by decide, by decide, by decide, by decide, by decide⟩
    (by decide)

/-- C9: `delete` returns true exactly when the value is present; on an absent value
it returns false and leaves the set entirely unchanged; on a present value the
element's node is spliced out of the chain (size decreases by one, the remaining
elements keep their relative order: the value list is the old one with the value
erased), and removing the only element of a singleton set resets both `_firstNode`
and `_lastNode` to `null`. -/
theorem c9_delete_behaviour {V : Type} [DecidableEq V] (s : ReverseIterableSet V)
    (ids : List Nat) (v : V) (h : Chain s ids) :
    ((s.delete v).1 = s.has v) ∧
    (s.has v = false → s.delete v = (false, s)) ∧
    (∀ i l₁ l₂, JSMap.get s._setMap v = some i → ids = l₁ ++ i :: l₂ →
      ((s.delete v).2).size + 1 = s.size ∧
      Chain (s.delete v).2 (l₁ ++ l₂) ∧
      valsOf (s.delete v).2 (l₁ ++ l₂) = (valsOf s ids).erase v) ∧
    (s.size = 1 → s.has v = true →
      ((s.delete v).2)._firstNode = none ∧ ((s.delete v).2)._lastNode = none) := by
  refine ⟨delete_fst s v, ?_, ?_, ?_⟩
  · intro hv
    exact delete_of_absent (has_eq_false_iff.mp hv)
  · intro i l₁ l₂ hgv hsplit
    obtain ⟨-, hchain, hval⟩ := h.delete_present hgv hsplit
    have hvi : valAt s i = some v := (h.get_some hgv).2
    have hil1 : i ∉ l₁ := by
      have hnd := h.nodup
      rw [hsplit, List.nodup_append] at hnd
      exact fun hm => hnd.2.2 hm (by simp)
    refine ⟨?_, hchain, ?_⟩
    · rw [hchain.size_eq, h.size_eq, hsplit]
      simp
      omega
    · have hvnotl1 : v ∉ valsOf s l₁ := by
        intro hmem
        obtain ⟨j, hj, hjv⟩ := List.mem_filterMap.mp hmem
        have hji : j = i := h.value_unique (by rw [hsplit]; simp [hj])
          (by rw [hsplit]; simp) hjv hvi
        exact hil1 (hji ▸ hj)
      have hLHS : valsOf (s.delete v).2 (l₁ ++ l₂) =
          valsOf s l₁ ++ valsOf s l₂ := by
        unfold valsOf
        rw [List.filterMap_congr (fun a _ => hval a), List.filterMap_append]
      have hRHS : valsOf s ids = valsOf s l₁ ++ v :: valsOf s l₂ := by
        unfold valsOf
        rw [hsplit, List.filterMap_append, List.filterMap_cons, hvi]
      rw [hLHS, hRHS, List.erase_append_right _ hvnotl1, List.erase_cons_head]
  · intro hsz hv
    obtain ⟨i, hgv⟩ := has_eq_true_iff.mp hv
    have hlen : ids.length = 1 := by
      rw [← h.size_eq]
      exact hsz
    obtain ⟨a, ha⟩ := List.length_eq_one.mp hlen
    have hia : i ∈ ids := (h.get_some hgv).1
    have hsplit : ids = [] ++ i :: [] := by
      rw [ha] at hia ⊢
      simp at hia
      rw [hia]
      rfl
    obtain ⟨-, hchain, -⟩ := h.delete_present hgv hsplit
    exact ⟨by rw [hchain.first_eq]; rfl, by rw [hchain.last_eq]; rfl⟩

/-- C9 witness: deleting `20` from `{10, 20, 30}`. -/
theorem c9_witness :
    ((exNums.delete (some 20)).1 = exNums.has (some 20)) ∧
    (exNums.has (some 20) = false → exNums.delete (some 20) = (false, exNums)) ∧
    (∀ i l₁ l₂, JSMap.get exNums._setMap (some 20) = some i →
      [0, 1, 2] = l₁ ++ i :: l₂ →
      ((exNums.delete (some 20)).2).size + 1 = exNums.size ∧
      Chain (exNums.delete (some 20)).2 (l₁ ++ l₂) ∧
      valsOf (exNums.delete (some 20)).2 (l₁ ++ l₂) =
        (valsOf exNums [0, 1, 2]).erase (some 20)) ∧
    (exNums.size = 1 → exNums.has (some 20) = true →
      ((exNums.delete (some 20)).2)._firstNode = none ∧
        ((exNums.delete (some 20)).2)._lastNode = none) :=
  c9_delete_behaviour exNums [0, 1, 2] (some 20)
    ⟨by decide, by decide, by decide, by decide, by decide, by decide⟩

/-- C10: all public operations preserve the set invariants.  `Chain s ids` packages
them: each distinct value has exactly one chain node (`_setMap` indexes the chain
bijectively with distinct keys), the chain is acyclic (`ids.Nodup`) and doubly
consistent (each node's `prevNode` is its chain predecessor and `nextNode` its
successor), the first node has no predecessor and the last no successor, and
`_firstNode`/`_lastNode` are the chain's endpoints — `none` exactly when the set is
empty; the reported size and the index size equal the chain length.  `Inv` states
that some chain list witnesses this, and it holds for `construct` (empty or seeded)
and is preserved by `add`, `addFirst`, `delete` and `clear`. -/
theorem c10_operations_preserve_invariants {V : Type} [DecidableEq V] :
    Inv (empty V) ∧
    (∀ l : List V, Inv (ofList l)) ∧
    (∀ (s : ReverseIterableSet V) (v : V), Inv s → Inv (s.add v)) ∧
    (∀ (s : ReverseIterableSet V) (v : V), Inv s → Inv (s.addFirst v)) ∧
    (∀ (s : ReverseIterableSet V) (v : V), Inv s → Inv (s.delete v).2) ∧
    (∀ s : ReverseIterableSet V, Inv s → Inv s.clear) ∧
    (∀ (s : ReverseIterableSet V) (ids : List Nat), Chain s ids →
      s.size = ids.length ∧ s._setMap.length = ids.length ∧
      (s._firstNode = none ↔ ids = []) ∧ (s._lastNode = none ↔ ids = [])) := by
  refine ⟨⟨[], chain_empty V⟩, Inv.ofList_inv, fun s v h => h.add_inv v,
    fun s v h => h.addFirst_inv v, fun s v h => h.delete_inv v,
    fun s h => Inv.clear_inv s, ?_⟩
  intro s ids hc
  refine ⟨hc.size_eq, hc.map_length, ?_, ?_⟩
  · rw [hc.first_eq, List.head?_eq_none_iff]
  · rw [hc.last_eq, List.getLast?_eq_none_iff]

/-- C10 witness. -/
theorem c10_witness : Inv ((ReverseIterableSet.empty Nat).add 5) :=
  (c10_operations_preserve_invariants (V := Nat)).2.2.1 _ 5
    (c10_operations_preserve_invariants (V := Nat)).1
